import Mathlib

/-!
Verification of the lockenv vault engine (github.com/illarion/lockenv).

This file shallowly embeds the Go sources:
  internal/crypto/crypto.go        (KDF, AES-256-GCM encrypt/decrypt)
  internal/storage/metadata.go     (Metadata, FileEntry, AddFile, RemoveFile)
  internal/storage (bbolt)         (the four key/value namespaces)
  internal/security (PathValidator)
  internal/core (LockEnv: Init, LockFiles, FinalizeLock, Unlock,
                 RemoveFiles, GetChangedFiles, ChangePassword, readMetadata)
  internal/core/merge.go           (CompareFiles, HandleConflict, strategies)

Byte strings are `List Nat`.  External library primitives (SHA-256, PBKDF2,
the AES-GCM core, JSON marshalling) are modelled by concrete executable
stand-ins that preserve the structural properties the engine relies on
(lengths, invertibility of the CTR body, tag checking, injective
serialisation); everything written by this repository is translated
statement by statement.
-/

namespace Lockenv

abbrev Bytes := List Nat

/-- crypto.ClearBytes: overwrite every byte of the buffer with zero. -/
def clearBytes (b : Bytes) : Bytes := List.replicate b.length 0

theorem clearBytes_all_zero (b : Bytes) : ∀ x ∈ clearBytes b, x = 0 := by
  intro x hx
  simpa [clearBytes] using List.eq_of_mem_replicate hx

/-- Characters of a Go string as numeric code points. -/
def strBytes (s : String) : Bytes := s.data.map Char.toNat

/-! ### crypto.go constants -/

def SaltSize : Nat := 32
def KeySize : Nat := 32
def NonceSize : Nat := 12
def TagSize : Nat := 16
def DefaultIters : Nat := 210000

/-- Model of crypto/sha256 (external): a fixed 32-byte digest function. -/
def sha256Sum (b : Bytes) : Bytes :=
  (List.range 32).map fun i =>
    (b.foldl (fun a x => a * 131 + x + 7) 5 + i * 17) % 256

theorem sha256Sum_length (b : Bytes) : (sha256Sum b).length = 32 := by
  simp [sha256Sum]

/-- Model of encoding/hex EncodeToString (external): two hex digits per byte,
returned as character codes. -/
def hexChar (n : Nat) : Nat := if n < 10 then 48 + n else 87 + n

def hexEnc (b : Bytes) : Bytes := b.flatMap fun x => [hexChar (x / 16), hexChar (x % 16)]

/-- Model of golang.org/x/crypto/pbkdf2 (external): derives a KeySize-byte key
from password, salt and the iteration count. -/
def deriveKey (password salt : Bytes) (iterations : Nat) : Bytes :=
  (List.range KeySize).map fun i =>
    (password.foldl (fun a x => a * 131 + x + 1) 3 * 31 +
     salt.foldl (fun a x => a * 131 + x + 1) 11 * 17 + iterations * 7 + i) % 256

theorem deriveKey_length (password salt : Bytes) (iterations : Nat) :
    (deriveKey password salt iterations).length = KeySize := by
  simp [deriveKey]

inductive CryptoErr where
  | invalidCiphertext    -- ErrInvalidCiphertext ("invalid ciphertext")
  | authFailed           -- ErrAuthFailed ("authentication failed")
  | cipherCreateFailed   -- wrapped aes.NewCipher / cipher.NewGCM failure
  | randFailed           -- wrapped rand.Read failure while drawing the nonce
deriving DecidableEq, Repr

/-- aes.NewCipher succeeds exactly for 16-, 24- or 32-byte keys. -/
def aesKeyLenOk (key : Bytes) : Bool :=
  key.length == 16 || key.length == 24 || key.length == 32

/-- Model of the AES-CTR keystream inside GCM (external crypto/aes):
one keystream byte per position, determined by key and nonce. -/
def ksByte (key nonce : Bytes) (i : Nat) : Nat :=
  (key.foldl (fun a x => a * 131 + x + 1) 3 * 13 +
   nonce.foldl (fun a x => a * 131 + x + 1) 5 * 29 + i * 41) % 256

/-- CTR body transform starting at counter `i`: XOR with the keystream. -/
def ctrFrom (key nonce : Bytes) : Nat → Bytes → Bytes
  | _, [] => []
  | i, b :: bs => (b ^^^ ksByte key nonce i) :: ctrFrom key nonce (i + 1) bs

def ctrBody (key nonce : Bytes) (pt : Bytes) : Bytes := ctrFrom key nonce 0 pt

theorem ctrFrom_length (key nonce : Bytes) (i : Nat) (b : Bytes) :
    (ctrFrom key nonce i b).length = b.length := by
  induction b generalizing i with
  | nil => simp [ctrFrom]
  | cons x xs ih => simp [ctrFrom, ih]

theorem ctrFrom_involutive (key nonce : Bytes) (i : Nat) (b : Bytes) :
    ctrFrom key nonce i (ctrFrom key nonce i b) = b := by
  induction b generalizing i with
  | nil => simp [ctrFrom]
  | cons x xs ih => simp [ctrFrom, Nat.xor_cancel_right, ih]

/-- Model of the GCM authentication tag (external GHASH+AES): 16 bytes
determined by key, nonce and the ciphertext body. -/
def gcmTag (key nonce body : Bytes) : Bytes :=
  (List.range TagSize).map fun i =>
    (key.foldl (fun a x => a * 131 + x + 1) 3 * 3 +
     nonce.foldl (fun a x => a * 131 + x + 1) 5 * 7 +
     body.foldl (fun a x => a * 131 + x + 1) 7 * 11 + i * 23 + 1) % 256

theorem gcmTag_length (key nonce body : Bytes) : (gcmTag key nonce body).length = TagSize := by
  simp [gcmTag]

/-- gcm.Seal: ciphertext body followed by the 16-byte authentication tag. -/
def gcmSeal (key nonce pt : Bytes) : Bytes :=
  ctrBody key nonce pt ++ gcmTag key nonce (ctrBody key nonce pt)

/-- gcm.Open: split off the trailing tag, recompute and compare it, then
invert the CTR body; `none` models the authentication error. -/
def gcmOpen (key nonce ct : Bytes) : Option Bytes :=
  if ct.length < TagSize then none
  else
    let body := ct.take (ct.length - TagSize)
    let tag := ct.drop (ct.length - TagSize)
    if gcmTag key nonce body = tag then some (ctrBody key nonce body) else none

/-- Encryptor.Encrypt (crypto.go lines 66-92).  The fresh random nonce is an
explicit argument; `none` models a rand.Read failure.  On success the result
is `nonce || ciphertext || tag`. -/
def Encrypt (key : Bytes) (nonce : Option Bytes) (plaintext : Bytes) :
    Except CryptoErr Bytes :=
  if !aesKeyLenOk key then .error .cipherCreateFailed
  else
    match nonce with
    | none => .error .randFailed
    | some n => .ok (n ++ gcmSeal key n plaintext)

/-- Encryptor.Decrypt (crypto.go lines 95-121): reject blobs shorter than
nonce+tag with ErrInvalidCiphertext, split off the nonce, and surface any
gcm.Open failure as ErrAuthFailed. -/
def Decrypt (key : Bytes) (ciphertext : Bytes) : Except CryptoErr Bytes :=
  if ciphertext.length < NonceSize + TagSize then .error .invalidCiphertext
  else if !aesKeyLenOk key then .error .cipherCreateFailed
  else
    match gcmOpen key (ciphertext.take NonceSize) (ciphertext.drop NonceSize) with
    | some pt => .ok pt
    | none => .error .authFailed

theorem gcmSeal_length (key nonce pt : Bytes) :
    (gcmSeal key nonce pt).length = pt.length + TagSize := by
  simp [gcmSeal, ctrBody, ctrFrom_length, gcmTag_length]

theorem gcmOpen_gcmSeal (key nonce pt : Bytes) :
    gcmOpen key nonce (gcmSeal key nonce pt) = some pt := by
  have hlen : (gcmSeal key nonce pt).length = pt.length + TagSize :=
    gcmSeal_length key nonce pt
  have hbl : (ctrBody key nonce pt).length = pt.length := ctrFrom_length key nonce 0 pt
  have htake : (gcmSeal key nonce pt).take ((gcmSeal key nonce pt).length - TagSize) =
      ctrBody key nonce pt := by
    rw [hlen]
    simp [gcmSeal, Nat.add_sub_cancel, List.take_append_of_le_length, hbl,
      List.take_of_length_le]
  have hdrop : (gcmSeal key nonce pt).drop ((gcmSeal key nonce pt).length - TagSize) =
      gcmTag key nonce (ctrBody key nonce pt) := by
    rw [hlen]
    simp [gcmSeal, Nat.add_sub_cancel, hbl, List.drop_append_of_le_length,
      List.drop_of_length_le]
  unfold gcmOpen
  rw [if_neg (by omega)]
  simp only [htake, hdrop, if_pos rfl]
  simpa [ctrBody] using congrArg some (ctrFrom_involutive key nonce 0 pt)

/-- Decrypting a freshly sealed blob under the same key recovers the
plaintext. -/
theorem decrypt_encrypt_roundtrip (key nonce pt : Bytes)
    (hk : key.length = 32) (hn : nonce.length = 12) :
    Decrypt key (nonce ++ gcmSeal key nonce pt) = .ok pt := by
  have hkeyok : aesKeyLenOk key = true := by simp [aesKeyLenOk, hk]
  have hlen : (nonce ++ gcmSeal key nonce pt).length = 12 + (pt.length + 16) := by
    simp [gcmSeal_length, hn, TagSize]
  have htake : (nonce ++ gcmSeal key nonce pt).take NonceSize = nonce := by
    simp [NonceSize, hn, List.take_left]
  have hdrop : (nonce ++ gcmSeal key nonce pt).drop NonceSize = gcmSeal key nonce pt := by
    simp [NonceSize, hn, List.drop_left]
  unfold Decrypt
  rw [if_neg (by rw [hlen]; simp only [NonceSize, TagSize]; omega),
    if_neg (by simp [hkeyok]), htake, hdrop, gcmOpen_gcmSeal]

/-! ### Claim C5: encrypted blob format and round trip -/

/-- C5: For every plaintext, Encrypt returns `nonce || ciphertext || tag` with
a 12-byte nonce and a 16-byte tag (blob exactly 28 bytes longer than the
plaintext), and Decrypt under the same key returns the original plaintext. -/
theorem C5_encrypt_format_roundtrip (key nonce pt : Bytes)
    (hk : key.length = 32) (hn : nonce.length = 12) :
    ∃ body tag,
      Encrypt key (some nonce) pt = .ok (nonce ++ (body ++ tag)) ∧
      body.length = pt.length ∧ tag.length = 16 ∧
      (nonce ++ (body ++ tag)).length = pt.length + 28 ∧
      Decrypt key (nonce ++ (body ++ tag)) = .ok pt := by
  have hkeyok : aesKeyLenOk key = true := by simp [aesKeyLenOk, hk]
  refine ⟨ctrBody key nonce pt, gcmTag key nonce (ctrBody key nonce pt), ?_, ?_, ?_, ?_, ?_⟩
  · simp [Encrypt, hkeyok, gcmSeal]
  · exact ctrFrom_length key nonce 0 pt
  · exact gcmTag_length key nonce (ctrBody key nonce pt)
  · simp [ctrFrom_length, ctrBody, gcmTag_length, hn, TagSize]
    omega
  · have hblob : nonce ++ (ctrBody key nonce pt ++ gcmTag key nonce (ctrBody key nonce pt)) =
        nonce ++ gcmSeal key nonce pt := by simp [gcmSeal]
    rw [hblob]
    exact decrypt_encrypt_roundtrip key nonce pt hk hn

/-- C5 witness at a concrete key, nonce and plaintext. -/
theorem C5_encrypt_format_roundtrip_witness :
    (List.replicate 32 7 : Bytes).length = 32 ∧
    (List.replicate 12 1 : Bytes).length = 12 ∧
    ∃ body tag,
      Encrypt (List.replicate 32 7) (some (List.replicate 12 1)) [104, 105] =
        .ok (List.replicate 12 1 ++ (body ++ tag)) ∧
      body.length = 2 ∧ tag.length = 16 ∧
      (List.replicate 12 1 ++ (body ++ tag)).length = 2 + 28 ∧
      Decrypt (List.replicate 32 7) (List.replicate 12 1 ++ (body ++ tag)) = .ok [104, 105] :=
  ⟨by decide, by decide,
    C5_encrypt_format_roundtrip (List.replicate 32 7) (List.replicate 12 1) [104, 105]
      (by decide) (by decide)⟩

/-! ### Claim C6: Decrypt failure conditions -/

/-- C6 counterexample: Decrypt does NOT surface a single failure condition in
all failure cases — a too-short blob yields ErrInvalidCiphertext while a
tampered 28-byte blob yields the distinct ErrAuthFailed, so the two cases are
distinguishable by the returned error value. -/
theorem C6_single_error_counterexample :
    Decrypt (List.replicate 32 7) [] = .error .invalidCiphertext ∧
    Decrypt (List.replicate 32 7) (List.replicate 28 0) = .error .authFailed ∧
    CryptoErr.invalidCiphertext ≠ CryptoErr.authFailed := by
  refine ⟨by rfl, by rfl, by decide⟩

/-- C6 amended: Decrypt surfaces exactly two failure conditions — blobs
shorter than nonce+tag (28 bytes) fail with ErrInvalidCiphertext, and every
other failure (wrong key or tampered data) is the single generic
ErrAuthFailed, so wrong-key and corrupted blobs are mutually
indistinguishable while the too-short case is a distinct error. -/
theorem C6_two_error_conditions (key ct : Bytes) (hk : key.length = 32) :
    (ct.length < 28 → Decrypt key ct = .error .invalidCiphertext) ∧
    (∀ e, Decrypt key ct = .error e → e = .invalidCiphertext ∨ e = .authFailed) ∧
    (28 ≤ ct.length → ∀ e, Decrypt key ct = .error e → e = .authFailed) := by
  have hkeyok : aesKeyLenOk key = true := by simp [aesKeyLenOk, hk]
  have h28 : NonceSize + TagSize = 28 := by decide
  refine ⟨?_, ?_, ?_⟩
  · intro hlt
    unfold Decrypt
    rw [if_pos (by omega)]
  · intro e he
    by_cases hlt : ct.length < NonceSize + TagSize
    · left
      unfold Decrypt at he
      rw [if_pos hlt] at he
      exact ((Except.error.injEq _ _).mp he).symm
    · right
      unfold Decrypt at he
      rw [if_neg hlt, if_neg (by simp [hkeyok])] at he
      cases hopen : gcmOpen key (ct.take NonceSize) (ct.drop NonceSize) with
      | some pt => rw [hopen] at he; exact absurd he (by simp)
      | none => rw [hopen] at he; exact ((Except.error.injEq _ _).mp he).symm
  · intro hge e he
    by_cases hlt : ct.length < NonceSize + TagSize
    · omega
    · unfold Decrypt at he
      rw [if_neg hlt, if_neg (by simp [hkeyok])] at he
      cases hopen : gcmOpen key (ct.take NonceSize) (ct.drop NonceSize) with
      | some pt => rw [hopen] at he; exact absurd he (by simp)
      | none => rw [hopen] at he; exact ((Except.error.injEq _ _).mp he).symm

/-- C6 amended witness at a concrete key and blob. -/
theorem C6_two_error_conditions_witness :
    (List.replicate 32 7 : Bytes).length = 32 ∧
    (([] : Bytes).length < 28 → Decrypt (List.replicate 32 7) [] = .error .invalidCiphertext) :=
  ⟨by decide, (C6_two_error_conditions (List.replicate 32 7) [] (by decide)).1⟩

/-! ### secureFileMode (internal/core, merge_test.go container lines 384-390) -/

def FilePermSecure : Nat := 0o600
def DirPermSecure : Nat := 0o700
def MaxVaultCopies : Nat := 100
def passwordCheckString : String := "lockenv-password-check"

/-- secureFileMode: mask a recorded file mode to the owner bits, falling back
to 0600 when the mask is zero. -/
def secureFileMode (mode : Nat) : Nat :=
  let secure := mode &&& 0o700
  if secure = 0 then FilePermSecure else secure

/-- C7 counterexample: a recorded mode of 0444 (owner read-only, no execute
bit) is restored as 0400, not as the claimed owner-only rw 0600. -/
theorem C7_mode_counterexample :
    secureFileMode 0o444 = 0o400 ∧ (0o400 : Nat) ≠ 0o600 ∧ (0o400 : Nat) ≠ 0o700 := by
  decide

theorem secureFileMode_strips_group_other (mode : Nat) :
    secureFileMode mode &&& 0o077 = 0 := by
  unfold secureFileMode
  by_cases h : mode &&& 0o700 = 0
  · rw [if_pos h]; decide
  · rw [if_neg h, Nat.land_assoc]
    have h63 : (0o700 &&& 0o077 : Nat) = 0 := by decide
    rw [h63]
    simp

theorem secureFileMode_mask (mode : Nat) :
    (mode &&& 0o700 = 0 → secureFileMode mode = 0o600) ∧
    (mode &&& 0o700 ≠ 0 → secureFileMode mode = mode &&& 0o700) := by
  unfold secureFileMode
  constructor
  · intro h; simp [h, FilePermSecure]
  · intro h; simp [h]

/-! ### storage/metadata.go -/

structure FileEntry where
  path : String
  size : Int
  mode : Nat
  modTime : Nat
  hash : Bytes
deriving DecidableEq, Repr

structure Metadata where
  version : Nat
  created : Nat
  modified : Nat
  checksum : Bytes
  files : List FileEntry
deriving DecidableEq, Repr

/-- NewMetadata: version 1, empty file list. -/
def newMetadata (now : Nat) : Metadata :=
  { version := 1, created := now, modified := now, checksum := [], files := [] }

/-- Replace the first entry satisfying `p` (the in-place update of the Go
loop in Metadata.AddFile). -/
def replaceFirst (p : FileEntry → Bool) (x : FileEntry) : List FileEntry → List FileEntry
  | [] => []
  | a :: as => if p a then x :: as else a :: replaceFirst p x as

/-- The size clamp at the top of Metadata.AddFile. -/
def clampEntry (e : FileEntry) : FileEntry :=
  if e.size < 0 then { e with size := 0 } else e

/-- Metadata.AddFile: clamp a negative size to zero, update the first entry
with the same path in place, otherwise append. -/
def Metadata.addFile (m : Metadata) (e : FileEntry) (now : Nat) : Metadata :=
  if m.files.any (fun f => f.path == (clampEntry e).path) then
    { m with
        files := replaceFirst (fun f => f.path == (clampEntry e).path) (clampEntry e) m.files,
        modified := now }
  else
    { m with files := m.files ++ [clampEntry e], modified := now }

/-- Remove the first entry with the given path; `none` when absent. -/
def removeFirst (path : String) : List FileEntry → Option (List FileEntry)
  | [] => none
  | f :: fs =>
    if f.path == path then some fs
    else match removeFirst path fs with
         | some fs' => some (f :: fs')
         | none => none

/-- Metadata.RemoveFile: remove the first matching entry, reporting whether
anything was removed. -/
def Metadata.removeFile (m : Metadata) (path : String) (now : Nat) : Metadata × Bool :=
  match removeFirst path m.files with
  | some fs => ({ m with files := fs, modified := now }, true)
  | none => (m, false)

def pathsUnique (m : Metadata) : Prop := (m.files.map (fun f => f.path)).Nodup

theorem replaceFirst_map_path (k : String) (x : FileEntry) (hx : x.path = k) :
    ∀ l : List FileEntry,
      (replaceFirst (fun f => f.path == k) x l).map (fun f => f.path) =
        l.map (fun f => f.path)
  | [] => by simp [replaceFirst]
  | a :: as => by
    by_cases h : a.path = k
    · simp [replaceFirst, h, hx]
    · simp [replaceFirst, h, replaceFirst_map_path k x hx as]

theorem removeFirst_sublist (path : String) :
    ∀ l l' : List FileEntry, removeFirst path l = some l' →
      (l'.map (fun f => f.path)).Sublist (l.map (fun f => f.path))
  | [], _, h => by simp [removeFirst] at h
  | f :: fs, l', h => by
    by_cases hf : f.path = path
    · simp only [removeFirst, hf, beq_self_eq_true, if_true, Option.some.injEq] at h
      subst h
      exact (List.sublist_cons_self _ _)
    · simp only [removeFirst, beq_iff_eq, hf, if_false] at h
      cases hr : removeFirst path fs with
      | none => rw [hr] at h; exact absurd h (by simp)
      | some fs' =>
        rw [hr] at h
        cases h
        simp only [List.map_cons]
        exact List.Sublist.cons₂ _ (removeFirst_sublist path fs fs' hr)

theorem addFile_files_aux (files : List FileEntry) (x : FileEntry)
    (h : (files.map (fun f => f.path)).Nodup) :
    (((if files.any (fun f => f.path == x.path) then
          replaceFirst (fun f => f.path == x.path) x files
        else files ++ [x]).map (fun f => f.path))).Nodup := by
  by_cases hany : (files.any fun f => f.path == x.path) = true
  · rw [if_pos hany, replaceFirst_map_path x.path x rfl files]
    exact h
  · rw [if_neg hany]
    simp only [List.map_append, List.map_cons, List.map_nil]
    rw [List.nodup_append]
    refine ⟨h, List.nodup_singleton _, ?_⟩
    intro a ha hb
    simp only [List.mem_singleton] at hb
    subst hb
    apply hany
    simp only [List.mem_map] at ha
    obtain ⟨f, hf, hfe⟩ := ha
    exact List.any_eq_true.mpr ⟨f, hf, by simp [hfe]⟩

theorem addFile_pathsUnique (m : Metadata) (e : FileEntry) (now : Nat)
    (h : pathsUnique m) : pathsUnique (m.addFile e now) := by
  unfold Metadata.addFile pathsUnique
  have haux := addFile_files_aux m.files (clampEntry e) h
  by_cases hany : (m.files.any fun f => f.path == (clampEntry e).path) = true
  · rw [if_pos hany]
    rw [if_pos hany] at haux
    exact haux
  · rw [if_neg hany]
    rw [if_neg hany] at haux
    exact haux

theorem removeFile_pathsUnique (m : Metadata) (path : String) (now : Nat)
    (h : pathsUnique m) : pathsUnique (m.removeFile path now).1 := by
  unfold Metadata.removeFile
  cases hr : removeFirst path m.files with
  | none => simpa [pathsUnique] using h
  | some fs =>
    simp only [pathsUnique]
    exact (removeFirst_sublist path m.files fs hr).nodup h

inductive MetaOp where
  | add (e : FileEntry) (now : Nat)
  | remove (path : String) (now : Nat)

def applyOp (m : Metadata) : MetaOp → Metadata
  | .add e now => m.addFile e now
  | .remove p now => (m.removeFile p now).1

def applyOps (m : Metadata) (ops : List MetaOp) : Metadata := ops.foldl applyOp m

theorem applyOps_pathsUnique (m : Metadata) (ops : List MetaOp)
    (h : pathsUnique m) : pathsUnique (applyOps m ops) := by
  induction ops generalizing m with
  | nil => simpa [applyOps]
  | cons op rest ih =>
    show pathsUnique (applyOps (applyOp m op) rest)
    apply ih
    cases op with
    | add e now => exact addFile_pathsUnique m e now h
    | remove p now => exact removeFile_pathsUnique m p now h

/-- C9: starting from an empty metadata record, every sequence of AddFile and
RemoveFile operations preserves uniqueness of paths in the File Entries list
(AddFile updates an existing entry in place instead of appending a
duplicate). -/
theorem C9_paths_unique (t0 : Nat) (ops : List MetaOp) :
    pathsUnique (applyOps (newMetadata t0) ops) :=
  applyOps_pathsUnique (newMetadata t0) ops (by simp [pathsUnique, newMetadata])

/-! ### internal/security: PathValidator

A Unix path is modelled as an absolute flag plus the raw components obtained
by splitting on the separator, so `""` is `⟨false, []⟩`, `"./x"` is
`⟨false, [".", "x"]⟩` and `"a//b"` is `⟨false, ["a", "", "b"]⟩`. -/

structure GoPath where
  abs : Bool
  comps : List String
deriving DecidableEq, Repr

/-- Split character list on the separator (semantics of strings.Split). -/
def splitAux (cur : List Char) : List Char → List String
  | [] => [String.mk cur.reverse]
  | c :: cs =>
    if c = '/' then String.mk cur.reverse :: splitAux [] cs
    else splitAux (c :: cur) cs

/-- splitting a Go path string into our model (split on the separator, with
the absolute flag peeled off). -/
def splitPath (s : String) : GoPath :=
  if s = "" then ⟨false, []⟩
  else
    match s.data with
    | '/' :: rest => ⟨true, splitAux [] rest⟩
    | cs => ⟨false, splitAux [] cs⟩

def joinComps (c : List String) : String := String.intercalate "/" c

/-- One step of the lexical cleanup of filepath.Clean on a relative path,
operating on a reversed accumulator (most recent component first):
drop empty and `.` components, let `..` cancel the previous component
unless the accumulator is empty or already ends in `..`. -/
def cleanStep (acc : List String) (c : String) : List String :=
  if c = "" || c = "." then acc
  else if c = ".." then
    match acc with
    | [] => [".."]
    | a :: rest => if a = ".." then ".." :: a :: rest else rest
  else c :: acc

/-- filepath.Clean on a relative path, as a component list ( `[]` stands for
`"."` ). -/
def cleanRel (comps : List String) : List String :=
  (comps.foldl cleanStep []).reverse

/-- Accumulator invariant for `cleanStep`: clean components first, then a
run of `..`s. -/
def CleanAcc (acc : List String) : Prop :=
  ∃ front k, acc = front ++ List.replicate k ".." ∧
    ∀ x ∈ front, x ≠ ".." ∧ x ≠ "" ∧ x ≠ "."

theorem cleanStep_acc {acc : List String} (c : String) (h : CleanAcc acc) :
    CleanAcc (cleanStep acc c) := by
  obtain ⟨front, k, hacc, hfront⟩ := h
  unfold cleanStep
  by_cases hc0 : c = "" ∨ c = "."
  · rw [if_pos (by rcases hc0 with h | h <;> simp [h])]
    exact ⟨front, k, hacc, hfront⟩
  · rw [if_neg (by rcases not_or.mp hc0 with ⟨h1, h2⟩; simp [h1, h2])]
    push_neg at hc0
    by_cases hdd : c = ".."
    · rw [if_pos hdd]
      cases front with
      | nil =>
        -- acc is a pure run of `..`s
        simp only [List.nil_append] at hacc
        subst hacc
        cases k with
        | zero => exact ⟨[], 1, rfl, by simp⟩
        | succ k' =>
          rw [List.replicate_succ]
          show CleanAcc (if ".." = ".." then
              ".." :: ".." :: List.replicate k' ".." else List.replicate k' "..")
          rw [if_pos rfl]
          exact ⟨[], k' + 2, by simp [List.replicate_succ], by simp⟩
      | cons f fs =>
        -- head of the accumulator is a clean component, so `..` cancels it
        subst hacc
        have hf := hfront f (by simp)
        simp only [List.cons_append]
        show CleanAcc (if f = ".." then
            ".." :: f :: (fs ++ List.replicate k "..") else fs ++ List.replicate k "..")
        rw [if_neg hf.1]
        exact ⟨fs, k, rfl, fun x hx => hfront x (by simp [hx])⟩
    · rw [if_neg hdd]
      refine ⟨c :: front, k, by simp [hacc], ?_⟩
      intro x hx
      rcases List.mem_cons.mp hx with h | h
      · exact h ▸ ⟨hdd, hc0.1, hc0.2⟩
      · exact hfront x h

theorem foldl_cleanStep_acc (comps : List String) :
    ∀ acc, CleanAcc acc → CleanAcc (comps.foldl cleanStep acc) := by
  induction comps with
  | nil => intro acc h; exact h
  | cons c cs ih => intro acc h; exact ih _ (cleanStep_acc c h)

/-- The output of `cleanRel` is a run of leading `..`s followed by clean
components (no `..`, no empty, no `.`). -/
theorem cleanRel_shape (comps : List String) :
    ∃ k rest, cleanRel comps = List.replicate k ".." ++ rest ∧
      ∀ x ∈ rest, x ≠ ".." ∧ x ≠ "" ∧ x ≠ "." := by
  obtain ⟨front, k, hacc, hfront⟩ :=
    foldl_cleanStep_acc comps [] ⟨[], 0, rfl, by simp⟩
  refine ⟨k, front.reverse, ?_, ?_⟩
  · unfold cleanRel
    rw [hacc, List.reverse_append, List.reverse_replicate]
  · intro x hx
    exact hfront x (List.mem_reverse.mp hx)

/-- If the cleaned path does not begin with `..` then it contains no `..`,
no empty component and no `.` at all. -/
theorem cleanRel_no_escape (comps : List String)
    (h : (cleanRel comps).head? ≠ some "..") :
    ∀ x ∈ cleanRel comps, x ≠ ".." ∧ x ≠ "" ∧ x ≠ "." := by
  obtain ⟨k, rest, hshape, hrest⟩ := cleanRel_shape comps
  cases k with
  | zero =>
    intro x hx
    rw [hshape] at hx
    exact hrest x (by simpa using hx)
  | succ k' =>
    exfalso
    apply h
    rw [hshape, List.replicate_succ]
    simp

inductive PathErr where
  | emptyPath      -- ErrEmptyPath
  | absolutePath   -- ErrAbsolutePath
  | pathEscapes    -- ErrPathEscapes
deriving DecidableEq, Repr

/-- filepath.IsLocal (Unix, lexical): not absolute, not empty, and the
cleaned path does not start with `..`. -/
def isLocal (p : GoPath) : Bool :=
  !p.abs && !p.comps.isEmpty && ((cleanRel p.comps).head? != some "..")

/-- filepath.Clean returns "." for an empty relative result. -/
def normComps (c : List String) : List String := if c.isEmpty then ["."] else c

/-- The final defence in ValidateAndNormalize:
`strings.HasPrefix(relPath, "..")` on the joined path, i.e. the first
component starts with the two characters `..`. -/
def startsWithDotDot (c : List String) : Bool :=
  match c.head? with
  | some s =>
    match s.data with
    | '.' :: '.' :: _ => true
    | _ => false
  | none => false

/-- PathValidator.ValidateAndNormalize: reject empty input, non-local input
(absolute or escaping), re-check the cleaned path, apply the string-prefix
defence, and return the normalized component list (`["."]` for the
repository root itself). -/
def validateAndNormalize (p : GoPath) : Except PathErr (List String) :=
  if p.abs = false ∧ p.comps = [] then .error .emptyPath
  else if !isLocal p then
    (if p.abs then .error .absolutePath else .error .pathEscapes)
  else if !isLocal ⟨false, normComps (cleanRel p.comps)⟩ then .error .pathEscapes
  else if startsWithDotDot (cleanRel p.comps) then .error .pathEscapes
  else .ok (normComps (cleanRel p.comps))

/-- PathValidator.ValidateExistingPath: convert the stored (slash-separated)
path to the platform form and validate with the same rules; on Unix
FromSlash is the identity, so this is ValidateAndNormalize after splitting. -/
def validateExistingPath (stored : String) : Except PathErr (List String) :=
  validateAndNormalize (splitPath stored)

theorem validateAndNormalize_empty :
    validateAndNormalize ⟨false, []⟩ = .error .emptyPath := by
  simp [validateAndNormalize]

theorem validateAndNormalize_abs (comps : List String) :
    validateAndNormalize ⟨true, comps⟩ = .error .absolutePath := by
  simp [validateAndNormalize, isLocal]

theorem validateAndNormalize_escaping (comps : List String)
    (h : (cleanRel comps).head? = some "..") (hne : comps ≠ []) :
    validateAndNormalize ⟨false, comps⟩ = .error .pathEscapes := by
  unfold validateAndNormalize
  rw [if_neg (by simp [hne])]
  have hloc : isLocal ⟨false, comps⟩ = false := by
    simp [isLocal, h]
  rw [hloc]
  simp

/-- A validated path has no `..` and no empty component: its target stays
inside the repository root. -/
theorem validateAndNormalize_ok_confined (p : GoPath) (comps : List String)
    (h : validateAndNormalize p = .ok comps) :
    comps = ["."] ∨ ∀ x ∈ comps, x ≠ ".." ∧ x ≠ "" ∧ x ≠ "." := by
  unfold validateAndNormalize at h
  by_cases h1 : p.abs = false ∧ p.comps = []
  · rw [if_pos h1] at h; exact absurd h (by simp)
  · rw [if_neg h1] at h
    by_cases h2 : isLocal p = true
    · rw [if_neg (by simp [h2])] at h
      by_cases h3 : isLocal ⟨false, normComps (cleanRel p.comps)⟩ = true
      · rw [if_neg (by simp [h3])] at h
        by_cases h4 : startsWithDotDot (cleanRel p.comps) = true
        · rw [if_pos h4] at h; exact absurd h (by simp)
        · rw [if_neg h4] at h
          have hcomps : comps = normComps (cleanRel p.comps) :=
            (Except.ok.inj h).symm
          by_cases hemp : (cleanRel p.comps).isEmpty
          · left; simp [hcomps, normComps, hemp]
          · right
            rw [hcomps]
            unfold normComps
            rw [if_neg hemp]
            apply cleanRel_no_escape
            have h2' := h2
            unfold isLocal at h2'
            intro hhead
            -- a head of `..` contradicts IsLocal of the raw path, whose
            -- clean form has the same head
            simp [hhead] at h2'
      · rw [if_pos (by simp [h3])] at h; exact absurd h (by simp)
    · rw [if_pos (by simp [h2])] at h
      by_cases habs : p.abs = true
      · rw [if_pos habs] at h; exact absurd h (by simp)
      · rw [if_neg habs] at h; exact absurd h (by simp)

/-! ### Persistent store (internal/storage, bbolt buckets)

The four namespaces of the container: Meta (salt, iterations, modified),
Index (the public manifest), Blobs (encrypted file data), Private
(encrypted checksum token and metadata record).  Each bucket is an
association map from string key to value. -/

def alGet {α : Type} (l : List (String × α)) (k : String) : Option α :=
  (l.find? (fun p => p.1 == k)).map (fun p => p.2)

/-- bolt `Put`: upsert a key. -/
def alPut {α : Type} (l : List (String × α)) (k : String) (v : α) : List (String × α) :=
  l.filter (fun p => p.1 != k) ++ [(k, v)]

/-- bolt `Delete`: remove a key. -/
def alDel {α : Type} (l : List (String × α)) (k : String) : List (String × α) :=
  l.filter (fun p => p.1 != k)

theorem alGet_alPut_same {α : Type} (l : List (String × α)) (k : String) (v : α) :
    alGet (alPut l k v) k = some v := by
  unfold alGet alPut
  induction l with
  | nil => simp [List.find?]
  | cons p ps ih =>
    by_cases hp : p.1 = k
    · simp only [List.filter_cons, hp, bne_self_eq_false]
      exact ih
    · simp only [List.filter_cons, bne_iff_ne, ne_eq, hp, not_false_eq_true, if_pos,
        List.cons_append, List.find?]
      rw [show ((p.1 == k) = false) from beq_eq_false_iff_ne.mpr hp]
      exact ih

theorem findKey_filter_ne {α : Type} (k k' : String) (h : k ≠ k') :
    ∀ l : List (String × α),
      (l.filter fun p => p.1 != k).find? (fun p => p.1 == k') =
        l.find? (fun p => p.1 == k')
  | [] => rfl
  | p :: ps => by
    by_cases hp : p.1 = k
    · rw [List.filter_cons_of_neg (by simp [hp])]
      rw [List.find?_cons_of_neg (p := fun q : String × α => q.1 == k') _ (by simp [hp, h])]
      exact findKey_filter_ne k k' h ps
    · rw [List.filter_cons_of_pos (by simp [hp])]
      by_cases hp' : p.1 = k'
      · rw [List.find?_cons_of_pos (p := fun q : String × α => q.1 == k') _ (by simp [hp']),
          List.find?_cons_of_pos (p := fun q : String × α => q.1 == k') _ (by simp [hp'])]
      · rw [List.find?_cons_of_neg (p := fun q : String × α => q.1 == k') _ (by simp [hp']),
          List.find?_cons_of_neg (p := fun q : String × α => q.1 == k') _ (by simp [hp'])]
        exact findKey_filter_ne k k' h ps

theorem alGet_alPut_diff {α : Type} (l : List (String × α)) (k k' : String) (v : α)
    (h : k ≠ k') : alGet (alPut l k v) k' = alGet l k' := by
  unfold alGet alPut
  rw [List.find?_append, findKey_filter_ne k k' h]
  have hsingle : List.find? (fun p => p.1 == k') [(k, v)] = none := by
    simp [List.find?, beq_eq_false_iff_ne.mpr h]
  rw [hsingle]
  cases l.find? (fun p => p.1 == k') <;> rfl

/-- storage.ManifestEntry (public index entry: path, size, modTime, hash). -/
structure ManifestEntry where
  path : String
  size : Int
  modTime : Nat
  hash : Bytes
deriving DecidableEq, Repr

/-- The durable container: the four bbolt namespaces.  Salt, iteration count
and modification timestamp live in the Meta bucket and are modelled as
fields. -/
structure Vault where
  salt : Bytes
  iterations : Nat
  modifiedAt : Nat
  manifest : List (String × ManifestEntry)
  blobs : List (String × Bytes)
  priv : List (String × Bytes)
deriving DecidableEq, Repr

/-! ### Serialization (model of encoding/json for the Metadata record) -/

/-- Little-endian base-256 digits, with a structural fuel so the kernel can
evaluate (`fuel = n` always suffices). -/
def natDigitsGo : Nat → Nat → List Nat
  | 0, _ => []
  | fuel + 1, n => if n = 0 then [] else n % 256 :: natDigitsGo fuel (n / 256)

def natDigits (n : Nat) : List Nat := natDigitsGo n n

def encNat (n : Nat) : Bytes := (natDigits n).length :: natDigits n

def fromDigits (l : List Nat) : Nat := l.foldr (fun d a => d + 256 * a) 0

def decNat : Bytes → Option (Nat × Bytes)
  | [] => none
  | l :: rest => if l ≤ rest.length then some (fromDigits (rest.take l), rest.drop l) else none

def encInt (i : Int) : Bytes := (if i < 0 then 1 else 0) :: encNat i.natAbs

def decInt : Bytes → Option (Int × Bytes)
  | [] => none
  | s :: rest =>
    match decNat rest with
    | some (n, r) => some ((if s = 1 then -(n : Int) else (n : Int)), r)
    | none => none

def encBytes (b : Bytes) : Bytes := encNat b.length ++ b

def decBytes (b : Bytes) : Option (Bytes × Bytes) :=
  match decNat b with
  | some (n, r) => if n ≤ r.length then some (r.take n, r.drop n) else none
  | none => none

def encStr (s : String) : Bytes := encBytes (strBytes s)

def decStr (b : Bytes) : Option (String × Bytes) :=
  match decBytes b with
  | some (cs, r) => some (String.mk (cs.map Char.ofNat), r)
  | none => none

def encEntry (e : FileEntry) : Bytes :=
  encStr e.path ++ encInt e.size ++ encNat e.mode ++ encNat e.modTime ++ encBytes e.hash

def decEntry (b : Bytes) : Option (FileEntry × Bytes) :=
  match decStr b with
  | none => none
  | some (path, r1) =>
    match decInt r1 with
    | none => none
    | some (size, r2) =>
      match decNat r2 with
      | none => none
      | some (mode, r3) =>
        match decNat r3 with
        | none => none
        | some (modTime, r4) =>
          match decBytes r4 with
          | none => none
          | some (hash, r5) => some (⟨path, size, mode, modTime, hash⟩, r5)

def decListAux {α : Type} (dec : Bytes → Option (α × Bytes)) :
    Nat → Bytes → Option (List α × Bytes)
  | 0, b => some ([], b)
  | n + 1, b =>
    match dec b with
    | some (x, r) =>
      match decListAux dec n r with
      | some (xs, r') => some (x :: xs, r')
      | none => none
    | none => none

def encodeMetadata (m : Metadata) : Bytes :=
  encNat m.version ++ encNat m.created ++ encNat m.modified ++ encBytes m.checksum ++
    encNat m.files.length ++ m.files.foldr (fun e acc => encEntry e ++ acc) []

def decodeMetadata (b : Bytes) : Option Metadata :=
  match decNat b with
  | none => none
  | some (version, r1) =>
    match decNat r1 with
    | none => none
    | some (created, r2) =>
      match decNat r2 with
      | none => none
      | some (modified, r3) =>
        match decBytes r3 with
        | none => none
        | some (checksum, r4) =>
          match decNat r4 with
          | none => none
          | some (n, r5) =>
            match decListAux decEntry n r5 with
            | some (files, _) => some ⟨version, created, modified, checksum, files⟩
            | none => none

/-! ### internal/core: errors, events and readMetadata -/

inductive CoreErr where
  | notInitialized
  | alreadyExists
  | wrongPassword
  | passwordRequired
  | noTrackedFiles
  | other (msg : String)
deriving DecidableEq, Repr

/-- Observable side effects of one engine operation, in order.  Disk events
carry the target as root-relative components after the lexical join with the
repository root (a leading `..` means the target escapes the root).  Store
events mirror the bbolt writes. -/
inductive Ev where
  | readDisk (comps : List String)
  | writeDisk (comps : List String) (data : Bytes) (mode : Nat)
  | mkdirDisk (comps : List String) (mode : Nat)
  | removeDisk (comps : List String)
  | chtimesDisk (comps : List String)
  | decryptBlob (path : String)
  | stSetSalt (salt : Bytes)
  | stSetIterations (n : Nat)
  | stPutBlob (path : String) (ct : Bytes)
  | stDelBlob (path : String)
  | stPutPriv (key : String) (ct : Bytes)
  | stPutManifest (path : String)
  | stDelManifest (path : String)
  | stTouchModified
deriving DecidableEq, Repr

/-- A root-relative component list resolves outside the repository root
exactly when it begins with `..` after cleanup. -/
def escapesComps (c : List String) : Bool := c.head? == some ".."

/-- The disk target of `filepath.Join(repoRoot, filepath.FromSlash(p))`, as
root-relative components (lexical join, as performed by filepath.Join). -/
def joinRootComps (p : String) : List String := cleanRel (splitPath p).comps

def Ev.isStoreMutation : Ev → Bool
  | .stSetSalt _ | .stSetIterations _ | .stPutBlob _ _ | .stDelBlob _
  | .stPutPriv _ _ | .stPutManifest _ | .stDelManifest _ | .stTouchModified => true
  | _ => false

def Ev.isDiskWrite : Ev → Bool
  | .writeDisk _ _ _ | .mkdirDisk _ _ | .removeDisk _ => true
  | _ => false

def Ev.isBlobDecrypt : Ev → Bool
  | .decryptBlob _ => true
  | _ => false

/-- The plaintext of the password-check token: the hex encoding of
sha256(passwordCheckString). -/
def checkTokenPlain : Bytes := hexEnc (sha256Sum (strBytes passwordCheckString))

/-- LockEnv.readMetadata: derive the key from the stored salt and iteration
count, verify the password-check token ("checksum"), then decrypt and
unmarshal the Metadata record ("files").  Returns the metadata and the
derived key; performs no mutation. -/
def readMetadata (v : Vault) (password : Option Bytes) :
    Except CoreErr (Metadata × Bytes) :=
  match password with
  | none => .error .passwordRequired
  | some pw =>
    let key := deriveKey pw v.salt v.iterations
    match alGet v.priv "checksum" with
    | none => .error .wrongPassword
    | some encChecksum =>
      match Decrypt key encChecksum with
      | .error _ => .error .wrongPassword
      | .ok checksumData =>
        if checksumData ≠ checkTokenPlain then .error .wrongPassword
        else
          match alGet v.priv "files" with
          | none => .error (.other "failed to read metadata")
          | some encMetadata =>
            match Decrypt key encMetadata with
            | .error _ => .error (.other "failed to decrypt metadata")
            | .ok metadataData =>
              match decodeMetadata metadataData with
              | none => .error (.other "failed to unmarshal metadata")
              | some m => .ok (m, key)

/-- LockEnv.saveMetadata: stamp Modified, marshal, encrypt and store under
the private "files" key, then bump the container modification time. -/
def saveMetadata (v : Vault) (m : Metadata) (key : Bytes) (nonce : Option Bytes)
    (now : Nat) : Except CoreErr (Vault × List Ev) :=
  match Encrypt key nonce (encodeMetadata { m with modified := now }) with
  | .error _ => .error (.other "failed to encrypt metadata")
  | .ok ct =>
    .ok ({ v with priv := alPut v.priv "files" ct, modifiedAt := now },
      [.stPutPriv "files" ct, .stTouchModified])

/-! ### internal/core/merge.go -/

inductive MergeStrategy where
  | ask | keepLocal | useVault | keepBoth | abort
deriving DecidableEq, Repr

inductive ConflictResolution where
  | keepLocal | useVault | editMerged | keepBoth | skip
deriving DecidableEq, Repr

structure ConflictResult where
  resolution : ConflictResolution
  mergedData : Bytes
deriving DecidableEq, Repr

structure UnlockResult where
  extracted : List String
  skipped : List String
  errors : List String
deriving DecidableEq, Repr

/-- CompareFiles: two buffers are identical iff their SHA-256 hashes are
equal. -/
def compareFiles (localData vaultData : Bytes) : Bool :=
  sha256Sum localData == sha256Sum vaultData

/-- HandleConflict: the four non-interactive strategies are decided directly;
`abort` reports an error for the file; `ask` consults the interactive menu,
modelled by the oracle `confAsk` (whose editMerged answer carries the
editor-produced merge). -/
def handleConflict (confAsk : Bytes → Bytes → ConflictResult)
    (path : String) (localData vaultData : Bytes) (strategy : MergeStrategy) :
    Except String ConflictResult :=
  match strategy with
  | .keepLocal => .ok ⟨.keepLocal, []⟩
  | .useVault => .ok ⟨.useVault, []⟩
  | .keepBoth => .ok ⟨.keepBoth, []⟩
  | .abort => .error ("conflict detected for " ++ path ++ " (aborting)")
  | .ask => .ok (confAsk localData vaultData)

/-- The candidate remainders a `*` can leave: the name itself, then the
name after consuming one, two, ... non-separator characters. -/
def starSuffixes : List Char → List (List Char)
  | [] => [[]]
  | c :: cs => (c :: cs) :: (if c = '/' then [] else starSuffixes cs)

/-- Model of path/filepath.Match (external, Unix), restricted to the `*`,
`?` and literal constructs (character classes are not used by this
repository's callers): `*` matches any run of non-separator characters,
`?` one non-separator character. -/
def globMatch : List Char → List Char → Bool
  | [], n => n.isEmpty
  | '*' :: ps, n => (starSuffixes n).any (fun s => globMatch ps s)
  | '?' :: ps, n =>
    match n with
    | [] => false
    | c :: ns => c != '/' && globMatch ps ns
  | p :: ps, n =>
    match n with
    | [] => false
    | c :: ns => p == c && globMatch ps ns

def matchPattern (pattern name : String) : Bool := globMatch pattern.data name.data

/-- filterFilesByPatterns: keep the files whose stored path equals a pattern
(patterns are already slash-separated on Unix) or glob-matches it. -/
def filterFilesByPatterns (files : List FileEntry) (patterns : List String) :
    List FileEntry :=
  files.filter fun file =>
    patterns.any fun pattern =>
      file.path == pattern || matchPattern pattern file.path

/-! ### LockEnv.FinalizeLock (two-phase commit of tracked files) -/

structure StatInfo where
  size : Int
  mode : Nat
  modTime : Nat
  isDir : Bool
deriving DecidableEq, Repr

/-- One prepared file of FinalizeLock's phase 1. -/
structure Pending where
  index : Nat
  path : String
  comps : List String
  encrypted : Bytes
  hash : Bytes
  size : Int
  mode : Nat
  modTime : Nat
deriving DecidableEq, Repr

/-- Phase 1 of FinalizeLock: read and encrypt every tracked file.  A file
that cannot be read or stat'd is skipped with a warning; an encryption
failure aborts, clearing every already-produced ciphertext, and returns the
final contents of those buffers together with the events so far.  No store
write happens in this phase. -/
def phase1 (fsRead : List String → Option Bytes)
    (fsStat : List String → Option StatInfo)
    (key : Bytes) (nonces : Nat → Option Bytes) :
    List (Nat × FileEntry) → List Pending → List Ev → Nat →
      Except (List Bytes × List Ev) (List Pending × List Ev × Nat)
  | [], pending, evs, ctr => .ok (pending, evs, ctr)
  | (i, f) :: rest, pending, evs, ctr =>
    match fsRead (joinRootComps f.path) with
    | none =>
      phase1 fsRead fsStat key nonces rest pending
        (evs ++ [.readDisk (joinRootComps f.path)]) ctr
    | some data =>
      match fsStat (joinRootComps f.path) with
      | none =>
        phase1 fsRead fsStat key nonces rest pending
          (evs ++ [.readDisk (joinRootComps f.path)]) ctr
      | some st =>
        match Encrypt key (nonces ctr) data with
        | .error _ =>
          .error (pending.map (fun p => clearBytes p.encrypted),
            evs ++ [.readDisk (joinRootComps f.path)])
        | .ok ct =>
          phase1 fsRead fsStat key nonces rest
            (pending ++ [⟨i, f.path, joinRootComps f.path, ct, hexEnc (sha256Sum data),
              st.size, st.mode, st.modTime⟩])
            (evs ++ [.readDisk (joinRootComps f.path)]) (ctr + 1)

/-- metadata.Files[p.index] update of phase 2. -/
def setFileAt (files : List FileEntry) (i : Nat) (hash : Bytes) (size : Int)
    (mode modTime : Nat) : List FileEntry :=
  match files.get? i with
  | some f => files.set i { f with hash := hash, size := size, mode := mode, modTime := modTime }
  | none => files

/-- Phase 2 of FinalizeLock: store each prepared ciphertext, update the
public index entry and the in-memory File Entry, collecting the processed
disk targets for the optional remove step. -/
def phase2 : List Pending → Vault → List FileEntry → List Ev → List (List String) →
    Vault × List FileEntry × List Ev × List (List String)
  | [], v, files, evs, processed => (v, files, evs, processed)
  | p :: rest, v, files, evs, processed =>
    phase2 rest
      { v with blobs := alPut v.blobs p.path p.encrypted,
               manifest := alPut v.manifest p.path ⟨p.path, p.size, p.modTime, p.hash⟩ }
      (setFileAt files p.index p.hash p.size p.mode p.modTime)
      (evs ++ [.stPutBlob p.path p.encrypted, .stPutManifest p.path])
      (processed ++ [p.comps])

/-- LockEnv.FinalizeLock: read metadata (password check), fail on an empty
file list, run phase 1; on success run phase 2, save the metadata record,
bump the modification time, and optionally remove the processed originals
from disk. -/
def finalizeLock (fsRead : List String → Option Bytes)
    (fsStat : List String → Option StatInfo) (nonces : Nat → Option Bytes)
    (v : Vault) (password : Option Bytes) (remove : Bool) (now : Nat) :
    Except CoreErr Unit × Vault × List Ev :=
  match readMetadata v password with
  | .error e => (.error e, v, [])
  | .ok (metadata, key) =>
    if metadata.files.isEmpty then (.error .noTrackedFiles, v, [])
    else
      match phase1 fsRead fsStat key nonces metadata.files.enum [] [] 0 with
      | .error (_, evs) => (.error (.other "failed to encrypt"), v, evs)
      | .ok (pending, evs, ctr) =>
        if pending.isEmpty then (.error (.other "no files could be processed"), v, evs)
        else
          match phase2 pending v metadata.files evs [] with
          | (v1, files1, evs1, processed) =>
            match saveMetadata v1 { metadata with files := files1, modified := now }
                key (nonces ctr) now with
            | .error e => (.error e, v1, evs1)
            | .ok (v2, sevs) =>
              let evs2 := evs1 ++ sevs ++ [.stTouchModified]
              if remove then
                (.ok (), v2, evs2 ++ processed.map (fun c => .removeDisk c))
              else (.ok (), v2, evs2)

/-! ### LockEnv.Unlock -/

/-- Directory creation before a write-back: validate the parent directory
and create it with owner-only permissions (the `dir != "." && dir != "/"`
guard of the Go code corresponds to a nonempty parent component list). -/
def mkdirStepFor (dirComps : List String) (errMsg : String) :
    Except String (List Ev) :=
  if dirComps.isEmpty then .ok []
  else
    match validateAndNormalize ⟨false, dirComps⟩ with
    | .error _ => .error errMsg
    | .ok dc => .ok [.mkdirDisk dc DirPermSecure]

/-- The write-back tail of Unlock's per-file loop: create the parent
directory when needed (validated, owner-only rwx) and write the file content
(validated, secure mode), then set its modification time. -/
def writeOut (validComps : List String) (data : Bytes) (entryMode : Nat) :
    (List String × List String × List String) × List Ev :=
  match mkdirStepFor validComps.dropLast
      (joinComps validComps ++ ": cannot create directory") with
  | .error msg => (([], [], [msg]), [])
  | .ok mkEvs =>
    match validateAndNormalize ⟨false, validComps⟩ with
    | .error _ => (([], [], [joinComps validComps ++ ": cannot write file"]), mkEvs)
    | .ok wc =>
      (([joinComps validComps], [], []),
        mkEvs ++ [.writeDisk wc data (secureFileMode entryMode), .chtimesDisk validComps])

/-- The keep-both branch of Unlock: find the first free `.from-vault[.N]`
sibling (up to MaxVaultCopies), validate it, create its directory, write the
vault content there and keep the local file untouched. -/
def keepBothOut (fsExists : List String → Bool) (validComps : List String)
    (sealedData : Bytes) (entryMode : Nat) :
    (List String × List String × List String) × List Ev :=
  match (if !fsExists (joinRootComps (joinComps validComps ++ ".from-vault")) then
      some (joinComps validComps ++ ".from-vault")
    else
      ((List.range' 1 (MaxVaultCopies - 1)).find? fun i =>
          !fsExists (joinRootComps
            (joinComps validComps ++ ".from-vault." ++ toString i))).map
        fun i => joinComps validComps ++ ".from-vault." ++ toString i) with
  | none => (([], [], [joinComps validComps ++ ": too many backup copies"]), [])
  | some vaultPath =>
    match validateAndNormalize (splitPath vaultPath) with
    | .error _ => (([], [], [vaultPath ++ ": invalid vault copy path"]), [])
    | .ok vpComps =>
      match mkdirStepFor vpComps.dropLast
          (vaultPath ++ ": cannot create directory for vault copy") with
      | .error msg => (([], [], [msg]), [])
      | .ok mkEvs =>
        match validateAndNormalize (splitPath vaultPath) with
        | .error _ =>
          (([], [vaultPath], [vaultPath ++ ": cannot write vault copy"]), mkEvs)
        | .ok wc =>
          (([vaultPath], [joinComps validComps], []),
            mkEvs ++ [.writeDisk wc sealedData (secureFileMode entryMode)])

/-- One iteration of Unlock's per-file loop: fetch and decrypt the blob,
verify the integrity hash, re-validate the stored path, then reconcile with
the local file.  Returns the (extracted, skipped, errors) contributions and
the events of this file. -/
def unlockFile (fsReadLocal : List String → Option Bytes)
    (fsExists : List String → Bool) (confAsk : Bytes → Bytes → ConflictResult)
    (v : Vault) (key : Bytes) (strategy : MergeStrategy) (file : FileEntry) :
    (List String × List String × List String) × List Ev :=
  match alGet v.blobs file.path with
  | none => (([], [], [file.path ++ ": cannot read from storage"]), [])
  | some encryptedData =>
    match Decrypt key encryptedData with
    | .error _ => (([], [], [file.path ++ ": cannot decrypt"]), [.decryptBlob file.path])
    | .ok sealedData =>
      if hexEnc (sha256Sum sealedData) ≠ file.hash then
        (([], [], [file.path ++ ": failed integrity check"]), [.decryptBlob file.path])
      else
        match validateExistingPath file.path with
        | .error _ =>
          (([], [], [file.path ++ ": invalid path from vault"]), [.decryptBlob file.path])
        | .ok validComps =>
          match fsReadLocal validComps with
          | none =>
            -- no local file: write the decrypted content directly
            ((writeOut validComps sealedData file.mode).1,
              [.decryptBlob file.path, .readDisk validComps] ++
                (writeOut validComps sealedData file.mode).2)
          | some localData =>
            if compareFiles localData sealedData then
              (([], [joinComps validComps], []),
                [.decryptBlob file.path, .readDisk validComps])
            else
              match handleConflict confAsk (joinComps validComps) localData sealedData
                  strategy with
              | .error msg =>
                (([], [], [msg]), [.decryptBlob file.path, .readDisk validComps])
              | .ok cr =>
                match cr.resolution with
                | .keepLocal =>
                  (([], [joinComps validComps], []),
                    [.decryptBlob file.path, .readDisk validComps])
                | .skip =>
                  (([], [joinComps validComps], []),
                    [.decryptBlob file.path, .readDisk validComps])
                | .editMerged =>
                  ((writeOut validComps cr.mergedData file.mode).1,
                    [.decryptBlob file.path, .readDisk validComps] ++
                      (writeOut validComps cr.mergedData file.mode).2)
                | .keepBoth =>
                  ((keepBothOut fsExists validComps sealedData file.mode).1,
                    [.decryptBlob file.path, .readDisk validComps] ++
                      (keepBothOut fsExists validComps sealedData file.mode).2)
                | .useVault =>
                  ((writeOut validComps sealedData file.mode).1,
                    [.decryptBlob file.path, .readDisk validComps] ++
                      (writeOut validComps sealedData file.mode).2)

def unlockLoop (fsReadLocal : List String → Option Bytes)
    (fsExists : List String → Bool) (confAsk : Bytes → Bytes → ConflictResult)
    (v : Vault) (key : Bytes) (strategy : MergeStrategy) :
    List FileEntry → UnlockResult × List Ev
  | [] => (⟨[], [], []⟩, [])
  | f :: rest =>
    let r := unlockFile fsReadLocal fsExists confAsk v key strategy f
    let r' := unlockLoop fsReadLocal fsExists confAsk v key strategy rest
    (⟨r.1.1 ++ r'.1.extracted, r.1.2.1 ++ r'.1.skipped, r.1.2.2 ++ r'.1.errors⟩,
      r.2 ++ r'.2)

/-- LockEnv.Unlock: read metadata (password check), filter by the patterns
when given (failing when nothing matches), then process each selected entry.
Unlock never mutates the container. -/
def unlock (fsReadLocal : List String → Option Bytes)
    (fsExists : List String → Bool) (confAsk : Bytes → Bytes → ConflictResult)
    (v : Vault) (password : Option Bytes) (strategy : MergeStrategy)
    (patterns : List String) :
    Except CoreErr UnlockResult × Vault × List Ev :=
  match readMetadata v password with
  | .error e => (.error e, v, [])
  | .ok (metadata, key) =>
    if patterns.isEmpty then
      (.ok (unlockLoop fsReadLocal fsExists confAsk v key strategy metadata.files).1,
        v, (unlockLoop fsReadLocal fsExists confAsk v key strategy metadata.files).2)
    else if (filterFilesByPatterns metadata.files patterns).isEmpty then
      (.error (.other "no files match the specified patterns"), v, [])
    else
      (.ok (unlockLoop fsReadLocal fsExists confAsk v key strategy
          (filterFilesByPatterns metadata.files patterns)).1,
        v, (unlockLoop fsReadLocal fsExists confAsk v key strategy
          (filterFilesByPatterns metadata.files patterns)).2)

/-! ### LockEnv.ChangePassword -/

/-- First loop of ChangePassword: decrypt every stored blob with the current
key, failing the whole operation on a missing or undecryptable blob. -/
def cpDecryptAll (key : Bytes) (blobs : List (String × Bytes)) :
    List FileEntry → Except CoreErr (List (String × Bytes))
  | [] => .ok []
  | e :: rest =>
    match alGet blobs e.path with
    | none => .error (.other ("file " ++ e.path ++ " not sealed in vault"))
    | some encData =>
      match Decrypt key encData with
      | .error _ => .error (.other ("failed to decrypt file " ++ e.path))
      | .ok data =>
        match cpDecryptAll key blobs rest with
        | .ok files => .ok ((e.path, data) :: files)
        | .error err => .error err

/-- Second loop of ChangePassword: re-encrypt each plaintext under the new
key and store it back into the blob namespace. -/
def cpStoreAll (newKey : Bytes) (nonces : Nat → Option Bytes) :
    List (String × Bytes) → Nat → Vault → List Ev →
      Except CoreErr Unit × Vault × List Ev × Nat
  | [], ctr, v, evs => (.ok (), v, evs, ctr)
  | (path, data) :: rest, ctr, v, evs =>
    match Encrypt newKey (nonces ctr) data with
    | .error _ => (.error (.other ("failed to re-encrypt file " ++ path)), v, evs, ctr)
    | .ok ct =>
      cpStoreAll newKey nonces rest (ctr + 1)
        { v with blobs := alPut v.blobs path ct } (evs ++ [.stPutBlob path ct])

/-- LockEnv.ChangePassword: read metadata with the current password, decrypt
every blob with the current key, create a new KDF (fresh random salt,
default iteration count), persist the new salt and iterations, then
re-encrypt and store every blob, the password-check token and the Metadata
record under the new key. -/
def changePassword (nonces : Nat → Option Bytes) (newSalt : Bytes) (v : Vault)
    (currentPassword : Option Bytes) (newPassword : Bytes) :
    Except CoreErr Unit × Vault × List Ev :=
  match readMetadata v currentPassword with
  | .error e => (.error e, v, [])
  | .ok (metadata, currentKey) =>
    match cpDecryptAll currentKey v.blobs metadata.files with
    | .error e => (.error e, v, [])
    | .ok files =>
      let newKey := deriveKey newPassword newSalt DefaultIters
      -- Update salt and iterations (db.SetSalt, db.SetIterations)
      let v1 := { v with salt := newSalt, iterations := DefaultIters }
      let evs1 : List Ev := [.stSetSalt newSalt, .stSetIterations DefaultIters]
      match cpStoreAll newKey nonces files 0 v1 evs1 with
      | (.error e, v2, evs2, _) => (.error e, v2, evs2)
      | (.ok _, v2, evs2, ctr) =>
        match Encrypt newKey (nonces ctr) checkTokenPlain with
        | .error _ => (.error (.other "failed to encrypt checksum"), v2, evs2)
        | .ok checksumCt =>
          let v3 := { v2 with priv := alPut v2.priv "checksum" checksumCt }
          let evs3 := evs2 ++ [.stPutPriv "checksum" checksumCt]
          match Encrypt newKey (nonces (ctr + 1)) (encodeMetadata metadata) with
          | .error _ => (.error (.other "failed to encrypt metadata"), v3, evs3)
          | .ok mct =>
            (.ok (), { v3 with priv := alPut v3.priv "files" mct },
              evs3 ++ [.stPutPriv "files" mct])

/-! ### LockEnv.LockFiles (tracking phase) -/

/-- lockSingleFile: validate the path, stat it (skipping directories and
unreadable files with a warning), read and hash the content, add/update the
File Entry and the public index entry.  The glob expansion of LockFiles is
a parameter returning root-relative matches. -/
def lockSingleFile (fsRead : List String → Option Bytes)
    (fsStat : List String → Option StatInfo) (now : Nat)
    (acc : Metadata × Vault × List Ev) (file : String) :
    Metadata × Vault × List Ev :=
  match acc with
  | (m, v, evs) =>
    match validateAndNormalize (splitPath file) with
    | .error _ => (m, v, evs)
    | .ok comps =>
      match fsStat comps with
      | none => (m, v, evs)
      | some st =>
        if st.isDir then (m, v, evs)
        else
          match fsRead comps with
          | none => (m, v, evs ++ [.readDisk comps])
          | some content =>
            let p := joinComps comps
            let hash := hexEnc (sha256Sum content)
            (m.addFile ⟨p, st.size, st.mode, st.modTime, hash⟩ now,
             { v with manifest := alPut v.manifest p ⟨p, st.size, st.modTime, hash⟩ },
             evs ++ [.readDisk comps, .stPutManifest p])

/-- LockFiles: expand each pattern (a pattern with no glob matches is taken
as a direct file path), track every match, and save the updated metadata. -/
def lockFiles (glob : String → List String) (fsRead : List String → Option Bytes)
    (fsStat : List String → Option StatInfo) (nonces : Nat → Option Bytes)
    (v : Vault) (password : Option Bytes) (patterns : List String) (now : Nat) :
    Except CoreErr Unit × Vault × List Ev :=
  match readMetadata v password with
  | .error e => (.error e, v, [])
  | .ok (metadata, key) =>
    let expand := fun (pattern : String) =>
      match glob pattern with
      | [] => [pattern]
      | ms => ms
    match (patterns.flatMap expand).foldl (lockSingleFile fsRead fsStat now)
        (metadata, v, []) with
    | (m1, v1, evs1) =>
      match saveMetadata v1 m1 key (nonces 0) now with
      | .error e => (.error e, v1, evs1)
      | .ok (v2, sevs) => (.ok (), v2, evs1 ++ sevs)

/-! ### LockEnv.RemoveFiles -/

/-- Remove one matched file: validate and normalize the path to the stored
form, remove the File Entry and, when present, the public index and blob
entries. -/
def removeOne (now : Nat) (acc : Metadata × Vault × List Ev × Nat) (file : String) :
    Metadata × Vault × List Ev × Nat :=
  match acc with
  | (m, v, evs, removed) =>
    match validateAndNormalize (splitPath file) with
    | .error _ => (m, v, evs, removed)
    | .ok comps =>
      let storedPath := joinComps comps
      match m.removeFile storedPath now with
      | (m', true) =>
        (m', { v with manifest := alDel v.manifest storedPath,
                      blobs := alDel v.blobs storedPath },
         evs ++ [.stDelManifest storedPath, .stDelBlob storedPath], removed + 1)
      | (_, false) => (m, v, evs, removed)

/-- RemoveFiles: expand patterns like LockFiles, remove every match; a
no-match run is a soft success without saving metadata. -/
def removeFiles (glob : String → List String) (nonces : Nat → Option Bytes)
    (v : Vault) (password : Option Bytes) (patterns : List String) (now : Nat) :
    Except CoreErr Unit × Vault × List Ev :=
  match readMetadata v password with
  | .error e => (.error e, v, [])
  | .ok (metadata, key) =>
    let expand := fun (pattern : String) =>
      match glob pattern with
      | [] => [pattern]
      | ms => ms
    match (patterns.flatMap expand).foldl (removeOne now) (metadata, v, [], 0) with
    | (m1, v1, evs1, removed) =>
      if removed = 0 then (.ok (), v1, evs1)
      else
        match saveMetadata v1 m1 key (nonces 0) now with
        | .error e => (.error e, v1, evs1)
        | .ok (v2, sevs) => (.ok (), v2, evs1 ++ sevs)

/-! ### LockEnv.GetChangedFiles -/

structure ChangedFilesResult where
  changed : List String
  unchanged : List String
  missing : List String
deriving DecidableEq, Repr

def changedLoop (fsRead : List String → Option Bytes)
    (fsStat : List String → Option StatInfo) :
    List FileEntry → ChangedFilesResult × List Ev
  | [] => (⟨[], [], []⟩, [])
  | f :: rest =>
    let r := changedLoop fsRead fsStat rest
    match validateExistingPath f.path with
    | .error _ => r
    | .ok comps =>
      let p := joinComps comps
      match fsStat comps with
      | none => (⟨r.1.changed, r.1.unchanged, p :: r.1.missing⟩, r.2)
      | some _ =>
        match fsRead comps with
        | none => (⟨r.1.changed, r.1.unchanged, p :: r.1.missing⟩, [.readDisk comps] ++ r.2)
        | some content =>
          if hexEnc (sha256Sum content) ≠ f.hash then
            (⟨p :: r.1.changed, r.1.unchanged, r.1.missing⟩, [.readDisk comps] ++ r.2)
          else
            (⟨r.1.changed, p :: r.1.unchanged, r.1.missing⟩, [.readDisk comps] ++ r.2)

/-- GetChangedFiles: a read-only hash comparison pass over all File Entries
against the live filesystem.  Never mutates state. -/
def getChangedFiles (fsRead : List String → Option Bytes)
    (fsStat : List String → Option StatInfo) (v : Vault)
    (password : Option Bytes) :
    Except CoreErr ChangedFilesResult × Vault × List Ev :=
  match readMetadata v password with
  | .error e => (.error e, v, [])
  | .ok (metadata, _) =>
    let r := changedLoop fsRead fsStat metadata.files
    (.ok r.1, v, r.2)

deriving instance DecidableEq for Except

/-! ### Wrong password behaviour (C4) -/

/-- A password is wrong exactly when the stored check token fails to decrypt
under the derived key or decrypts to something other than the known
plaintext.  readMetadata then fails with ErrWrongPassword. -/
theorem readMetadata_wrongPassword (v : Vault) (pw : Bytes) (ct : Bytes)
    (hct : alGet v.priv "checksum" = some ct)
    (hbad : (∃ e, Decrypt (deriveKey pw v.salt v.iterations) ct = .error e) ∨
      (∃ t, Decrypt (deriveKey pw v.salt v.iterations) ct = .ok t ∧ t ≠ checkTokenPlain)) :
    readMetadata v (some pw) = .error .wrongPassword := by
  unfold readMetadata
  rcases hbad with ⟨e, he⟩ | ⟨t, ht, hne⟩
  · simp [hct, he]
  · simp [hct, ht, hne]

/-- C4: for every operation that requires decryption (lockFiles,
finalizeLock, unlock, removeFiles, getChangedFiles, changePassword), a wrong
password (check token fails to decrypt or mismatches the known string) makes
the operation fail with ErrWrongPassword, with the container unchanged and
no side effects at all. -/
theorem C4_wrong_password_no_mutation
    (v : Vault) (pw : Bytes) (ct : Bytes)
    (glob : String → List String) (fsRead : List String → Option Bytes)
    (fsStat : List String → Option StatInfo) (nonces : Nat → Option Bytes)
    (fsExists : List String → Bool) (confAsk : Bytes → Bytes → ConflictResult)
    (strategy : MergeStrategy) (patterns : List String) (remove : Bool)
    (newSalt newPassword : Bytes) (now : Nat)
    (hct : alGet v.priv "checksum" = some ct)
    (hbad : (∃ e, Decrypt (deriveKey pw v.salt v.iterations) ct = .error e) ∨
      (∃ t, Decrypt (deriveKey pw v.salt v.iterations) ct = .ok t ∧ t ≠ checkTokenPlain)) :
    lockFiles glob fsRead fsStat nonces v (some pw) patterns now =
      (.error .wrongPassword, v, []) ∧
    finalizeLock fsRead fsStat nonces v (some pw) remove now =
      (.error .wrongPassword, v, []) ∧
    unlock fsRead fsExists confAsk v (some pw) strategy patterns =
      (.error .wrongPassword, v, []) ∧
    removeFiles glob nonces v (some pw) patterns now =
      (.error .wrongPassword, v, []) ∧
    getChangedFiles fsRead fsStat v (some pw) =
      (.error .wrongPassword, v, []) ∧
    changePassword nonces newSalt v (some pw) newPassword =
      (.error .wrongPassword, v, []) := by
  have hrm := readMetadata_wrongPassword v pw ct hct hbad
  refine ⟨?_, ?_, ?_, ?_, ?_, ?_⟩
  · unfold lockFiles; rw [hrm]
  · unfold finalizeLock; rw [hrm]
  · unfold unlock; rw [hrm]
  · unfold removeFiles; rw [hrm]
  · unfold getChangedFiles; rw [hrm]
  · unfold changePassword; rw [hrm]

/-! ### A concrete well-formed test vault (witness material) -/

def wSalt : Bytes := List.replicate 32 2
def wIter : Nat := 1000
def wPw : Bytes := [97]
def wKey : Bytes := deriveKey wPw wSalt wIter
def wNonce : Bytes := List.replicate 12 3
def wTokenCt : Bytes := wNonce ++ gcmSeal wKey wNonce checkTokenPlain
def wContent : Bytes := [104, 105]
def wHash : Bytes := hexEnc (sha256Sum wContent)
def wEntry : FileEntry := ⟨"a.txt", 2, 420, 0, wHash⟩
def wMeta : Metadata := ⟨1, 0, 0, [], [wEntry]⟩
def wMetaCt : Bytes := wNonce ++ gcmSeal wKey wNonce (encodeMetadata wMeta)
def wBlobCt : Bytes := wNonce ++ gcmSeal wKey wNonce wContent

def wVault : Vault :=
  { salt := wSalt, iterations := wIter, modifiedAt := 0,
    manifest := [("a.txt", ⟨"a.txt", 2, 0, wHash⟩)],
    blobs := [("a.txt", wBlobCt)],
    priv := [("checksum", wTokenCt), ("files", wMetaCt)] }

set_option maxRecDepth 4000 in
/-- C4 witness: on the concrete vault, the password [98] fails the token
check and every operation returns ErrWrongPassword unchanged. -/
theorem C4_wrong_password_no_mutation_witness :
    alGet wVault.priv "checksum" = some wTokenCt ∧
    lockFiles (fun _ => []) (fun _ => none) (fun _ => none) (fun _ => none)
      wVault (some [98]) [] 0 = (.error .wrongPassword, wVault, []) := by
  constructor
  · rfl
  · exact (C4_wrong_password_no_mutation wVault [98] wTokenCt
      (fun _ => []) (fun _ => none) (fun _ => none) (fun _ => none)
      (fun _ => false) (fun _ _ => ⟨.skip, []⟩) .ask [] false [] [] 0
      rfl (by left; exact ⟨.authFailed, by decide⟩)).1

/-! ### C10: unlock with patterns matching nothing -/

/-- C10: if unlock is called with a non-empty pattern list and no tracked
File Entry matches any pattern (exact path equality or glob), the call fails
before touching any file: no event is emitted (no disk write, no blob
decryption) and the container is returned unchanged. -/
theorem C10_unlock_no_match (fsReadLocal : List String → Option Bytes)
    (fsExists : List String → Bool) (confAsk : Bytes → Bytes → ConflictResult)
    (v : Vault) (pw : Bytes) (strategy : MergeStrategy) (patterns : List String)
    (metadata : Metadata) (key : Bytes)
    (hrm : readMetadata v (some pw) = .ok (metadata, key))
    (hne : patterns ≠ [])
    (hfilter : filterFilesByPatterns metadata.files patterns = []) :
    unlock fsReadLocal fsExists confAsk v (some pw) strategy patterns =
      (.error (.other "no files match the specified patterns"), v, []) := by
  unfold unlock
  rw [hrm]
  have hpe : patterns.isEmpty = false := by
    cases patterns with
    | nil => exact absurd rfl hne
    | cons a as => rfl
  simp [hpe, hfilter]

set_option maxRecDepth 8000 in
/-- C10 witness: the concrete vault tracks only "a.txt"; the pattern list
["zzz"] matches nothing and unlock fails without effects. -/
theorem C10_unlock_no_match_witness :
    readMetadata wVault (some wPw) = .ok (wMeta, wKey) ∧
    (["zzz"] : List String) ≠ [] ∧
    filterFilesByPatterns wMeta.files ["zzz"] = [] ∧
    unlock (fun _ => none) (fun _ => false) (fun _ _ => ⟨.skip, []⟩)
      wVault (some wPw) .ask ["zzz"] =
      (.error (.other "no files match the specified patterns"), wVault, []) := by
  have h1 : readMetadata wVault (some wPw) = .ok (wMeta, wKey) := by decide
  have h3 : filterFilesByPatterns wMeta.files ["zzz"] = [] := by decide
  exact ⟨h1, by decide, h3,
    C10_unlock_no_match (fun _ => none) (fun _ => false) (fun _ _ => ⟨.skip, []⟩)
      wVault wPw .ask ["zzz"] wMeta wKey h1 (by decide) h3⟩

/-! ### C8: unlock skips byte-identical files -/

theorem unlockLoop_skipped_mem (fsReadLocal : List String → Option Bytes)
    (fsExists : List String → Bool) (confAsk : Bytes → Bytes → ConflictResult)
    (v : Vault) (key : Bytes) (strategy : MergeStrategy) (s : String) :
    ∀ files : List FileEntry, ∀ file ∈ files,
      s ∈ (unlockFile fsReadLocal fsExists confAsk v key strategy file).1.2.1 →
      s ∈ (unlockLoop fsReadLocal fsExists confAsk v key strategy files).1.skipped := by
  intro files
  induction files with
  | nil => intro file hf; exact absurd hf (by simp)
  | cons f fs ih =>
    intro file hf hs
    rcases List.mem_cons.mp hf with heq | hmem
    · subst heq
      exact List.mem_append.mpr (Or.inl hs)
    · exact List.mem_append.mpr (Or.inr (ih file hmem hs))

/-- C8: for a tracked file whose local copy is identical to the decrypted
vault copy (hashes match), unlock reports it as skipped and never writes to
it, regardless of the conflict strategy: the per-file step produces exactly
a skipped entry with no write events, and the file appears in the Skipped
list of the whole unlock run. -/
theorem C8_unlock_skips_identical (fsReadLocal : List String → Option Bytes)
    (fsExists : List String → Bool) (confAsk : Bytes → Bytes → ConflictResult)
    (v : Vault) (pw : Bytes) (metadata : Metadata) (key : Bytes)
    (strategy : MergeStrategy) (file : FileEntry)
    (encryptedData sealedData localData : Bytes) (validComps : List String)
    (hrm : readMetadata v (some pw) = .ok (metadata, key))
    (hmem : file ∈ metadata.files)
    (hblob : alGet v.blobs file.path = some encryptedData)
    (hdec : Decrypt key encryptedData = .ok sealedData)
    (hhash : hexEnc (sha256Sum sealedData) = file.hash)
    (hvalid : validateExistingPath file.path = .ok validComps)
    (hlocal : fsReadLocal validComps = some localData)
    (hcmp : compareFiles localData sealedData = true) :
    unlockFile fsReadLocal fsExists confAsk v key strategy file =
      (([], [joinComps validComps], []),
        [.decryptBlob file.path, .readDisk validComps]) ∧
    ∃ res evs,
      unlock fsReadLocal fsExists confAsk v (some pw) strategy [] = (.ok res, v, evs) ∧
      joinComps validComps ∈ res.skipped := by
  have hfile : unlockFile fsReadLocal fsExists confAsk v key strategy file =
      (([], [joinComps validComps], []),
        [.decryptBlob file.path, .readDisk validComps]) := by
    unfold unlockFile
    simp [hblob, hdec, hhash, hvalid, hlocal, hcmp]
  refine ⟨hfile, ?_⟩
  unfold unlock
  rw [hrm]
  simp only [List.isEmpty_nil, if_pos]
  refine ⟨(unlockLoop fsReadLocal fsExists confAsk v key strategy metadata.files).1,
    (unlockLoop fsReadLocal fsExists confAsk v key strategy metadata.files).2, rfl, ?_⟩
  apply unlockLoop_skipped_mem fsReadLocal fsExists confAsk v key strategy _ metadata.files
    file hmem
  rw [hfile]
  simp

set_option maxRecDepth 8000 in
/-- C8 witness: the concrete vault's "a.txt" with an identical local copy is
skipped, for the `useVault` strategy. -/
theorem C8_unlock_skips_identical_witness :
    compareFiles wContent wContent = true ∧
    unlockFile (fun c => if c = ["a.txt"] then some wContent else none)
      (fun _ => false) (fun _ _ => ⟨.skip, []⟩) wVault wKey .useVault wEntry =
      (([], [joinComps ["a.txt"]], []),
        [.decryptBlob wEntry.path, .readDisk ["a.txt"]]) := by
  have h := C8_unlock_skips_identical
    (fun c => if c = ["a.txt"] then some wContent else none)
    (fun _ => false) (fun _ _ => ⟨.skip, []⟩) wVault wPw wMeta wKey .useVault wEntry
    wBlobCt wContent wContent ["a.txt"]
    (by decide) (by decide) (by decide) (by decide) (by decide) (by decide)
    (by decide) (by decide)
  exact ⟨by decide, h.1⟩

/-! ### C3: FinalizeLock aborts cleanly on encryption failure -/

theorem phase1_error_inv (fsRead : List String → Option Bytes)
    (fsStat : List String → Option StatInfo) (key : Bytes)
    (nonces : Nat → Option Bytes) :
    ∀ (files : List (Nat × FileEntry)) (pending : List Pending) (evs : List Ev)
      (ctr : Nat) (out : List Bytes × List Ev),
      phase1 fsRead fsStat key nonces files pending evs ctr = .error out →
      (∀ e ∈ evs, e.isStoreMutation = false ∧ e.isDiskWrite = false) →
      (∀ b ∈ out.1, ∀ x ∈ b, x = 0) ∧
      (∀ e ∈ out.2, e.isStoreMutation = false ∧ e.isDiskWrite = false) := by
  intro files
  induction files with
  | nil =>
    intro pending evs ctr out h hevs
    exact absurd h (by simp [phase1])
  | cons ife rest ih =>
    intro pending evs ctr out h hevs
    match ife with
    | (i, f) =>
      unfold phase1 at h
      have hevs' : ∀ e ∈ evs ++ [Ev.readDisk (joinRootComps f.path)],
          e.isStoreMutation = false ∧ e.isDiskWrite = false := by
        intro e he
        rcases List.mem_append.mp he with h1 | h1
        · exact hevs e h1
        · simp only [List.mem_singleton] at h1
          subst h1
          exact ⟨rfl, rfl⟩
      split at h
      · exact ih _ _ _ out h hevs'
      · split at h
        · exact ih _ _ _ out h hevs'
        · split at h
          · have hout := Except.error.inj h
            subst hout
            refine ⟨?_, hevs'⟩
            intro b hb
            simp only [List.mem_map] at hb
            obtain ⟨p, _, hp⟩ := hb
            intro x hx
            exact clearBytes_all_zero p.encrypted x (hp ▸ hx)
          · exact ih _ _ _ out h hevs'

/-- C3: if, in FinalizeLock's prepare phase, encrypting any file fails (the
phase-1 pass returns an error), the whole operation returns an error, every
already-produced ciphertext buffer has been zeroed, and nothing has been
written to the persistent store or the disk (the container is unchanged and
the emitted events are reads only). -/
theorem C3_finalizeLock_encrypt_failure
    (fsRead : List String → Option Bytes) (fsStat : List String → Option StatInfo)
    (nonces : Nat → Option Bytes) (v : Vault) (pw : Bytes)
    (metadata : Metadata) (key : Bytes) (remove : Bool) (now : Nat)
    (bufs : List Bytes) (evs : List Ev)
    (hrm : readMetadata v (some pw) = .ok (metadata, key))
    (hne : metadata.files.isEmpty = false)
    (hph : phase1 fsRead fsStat key nonces metadata.files.enum [] [] 0 =
      .error (bufs, evs)) :
    finalizeLock fsRead fsStat nonces v (some pw) remove now =
      (.error (.other "failed to encrypt"), v, evs) ∧
    (∀ b ∈ bufs, ∀ x ∈ b, x = 0) ∧
    (∀ e ∈ evs, e.isStoreMutation = false ∧ e.isDiskWrite = false) := by
  have hinv := phase1_error_inv fsRead fsStat key nonces metadata.files.enum
    [] [] 0 (bufs, evs) hph (by simp)
  refine ⟨?_, hinv.1, hinv.2⟩
  unfold finalizeLock
  rw [hrm]
  simp only [hne, Bool.false_eq_true, if_false, hph]

def wFsRead : List String → Option Bytes :=
  fun c => if c = ["a.txt"] then some wContent else none

def wFsStat : List String → Option StatInfo :=
  fun c => if c = ["a.txt"] then some ⟨2, 420, 0, false⟩ else none

set_option maxRecDepth 8000 in
/-- C3 witness: on the concrete vault, a failing nonce source makes the first
encryption fail; FinalizeLock returns the error having only read the file. -/
theorem C3_finalizeLock_encrypt_failure_witness :
    phase1 wFsRead wFsStat wKey (fun _ => none) wMeta.files.enum [] [] 0 =
      .error ([], [.readDisk ["a.txt"]]) ∧
    finalizeLock wFsRead wFsStat (fun _ => none) wVault (some wPw) false 1 =
      (.error (.other "failed to encrypt"), wVault, [.readDisk ["a.txt"]]) := by
  have hph : phase1 wFsRead wFsStat wKey (fun _ => none) wMeta.files.enum [] [] 0 =
      .error ([], [.readDisk ["a.txt"]]) := by decide
  exact ⟨hph,
    (C3_finalizeLock_encrypt_failure wFsRead wFsStat (fun _ => none) wVault wPw
      wMeta wKey false 1 [] [.readDisk ["a.txt"]] (by decide) (by decide) hph).1⟩

/-! ### C2 / C7: unlock write-back policy (confinement and permissions) -/

/-- Policy satisfied by every event unlock emits: disk mutations stay inside
the root; directories are created 0700; written files have group/other
permission bits stripped; unlock removes nothing. -/
def unlockEvOk (e : Ev) : Prop :=
  match e with
  | .writeDisk c _ mode => escapesComps c = false ∧ mode &&& 0o077 = 0
  | .mkdirDisk c mode => escapesComps c = false ∧ mode = DirPermSecure
  | .removeDisk c => escapesComps c = false
  | _ => True

def evInsideRoot (e : Ev) : Bool :=
  match e with
  | .writeDisk c _ _ => !(escapesComps c)
  | .mkdirDisk c _ => !(escapesComps c)
  | .removeDisk c => !(escapesComps c)
  | _ => true

def evModeOk (e : Ev) : Bool :=
  match e with
  | .writeDisk _ _ mode => mode &&& 0o077 == 0
  | .mkdirDisk _ mode => mode == DirPermSecure
  | _ => true

theorem unlockEvOk_insideRoot (e : Ev) (h : unlockEvOk e) : evInsideRoot e = true := by
  cases e with
  | writeDisk c d m => simp [evInsideRoot, h.1]
  | mkdirDisk c m => simp [evInsideRoot, h.1]
  | removeDisk c =>
    have h' : escapesComps c = false := h
    simp [evInsideRoot, h']
  | readDisk c => rfl
  | chtimesDisk c => rfl
  | decryptBlob p => rfl
  | stSetSalt s => rfl
  | stSetIterations n => rfl
  | stPutBlob p ct => rfl
  | stDelBlob p => rfl
  | stPutPriv k ct => rfl
  | stPutManifest p => rfl
  | stDelManifest p => rfl
  | stTouchModified => rfl

theorem unlockEvOk_modeOk (e : Ev) (h : unlockEvOk e) : evModeOk e = true := by
  cases e with
  | writeDisk c d mode => simp [evModeOk, h.2]
  | mkdirDisk c mode => simp [evModeOk, h.2]
  | removeDisk c => rfl
  | readDisk c => rfl
  | chtimesDisk c => rfl
  | decryptBlob p => rfl
  | stSetSalt s => rfl
  | stSetIterations n => rfl
  | stPutBlob p ct => rfl
  | stDelBlob p => rfl
  | stPutPriv k ct => rfl
  | stPutManifest p => rfl
  | stDelManifest p => rfl
  | stTouchModified => rfl

theorem validate_ok_not_escaping (p : GoPath) (comps : List String)
    (h : validateAndNormalize p = .ok comps) : escapesComps comps = false := by
  rcases validateAndNormalize_ok_confined p comps h with h1 | h1
  · subst h1; rfl
  · cases comps with
    | nil => rfl
    | cons a as =>
      have ha := (h1 a (by simp)).1
      simp [escapesComps, ha]

theorem mkdirStepFor_events_ok (d : List String) (msg : String) (evs : List Ev)
    (h : mkdirStepFor d msg = .ok evs) : ∀ e ∈ evs, unlockEvOk e := by
  unfold mkdirStepFor at h
  split at h
  · cases h
    simp
  · split at h
    · exact absurd h (by simp)
    · rename_i dc hdc
      cases h
      intro e he
      simp only [List.mem_singleton] at he
      subst he
      exact ⟨validate_ok_not_escaping _ _ hdc, rfl⟩

theorem writeOut_events_ok (validComps : List String) (data : Bytes) (mode : Nat) :
    ∀ e ∈ (writeOut validComps data mode).2, unlockEvOk e := by
  unfold writeOut
  split
  · simp
  · rename_i mkEvs hmk
    split
    · exact mkdirStepFor_events_ok _ _ _ hmk
    · rename_i wc hwc
      intro e he
      rcases List.mem_append.mp he with h1 | h1
      · exact mkdirStepFor_events_ok _ _ _ hmk e h1
      · simp only [List.mem_cons, List.mem_singleton, List.not_mem_nil, or_false] at h1
        rcases h1 with h1 | h1
        · subst h1
          exact ⟨validate_ok_not_escaping _ _ hwc, secureFileMode_strips_group_other mode⟩
        · subst h1
          trivial

theorem keepBothOut_events_ok (fsExists : List String → Bool)
    (validComps : List String) (sealedData : Bytes) (mode : Nat) :
    ∀ e ∈ (keepBothOut fsExists validComps sealedData mode).2, unlockEvOk e := by
  unfold keepBothOut
  split
  · simp
  · rename_i vaultPath
    split
    · simp
    · rename_i vpComps hvp
      split
      · simp
      · rename_i mkEvs hmk
        split
        · exact mkdirStepFor_events_ok _ _ _ hmk
        · rename_i wc hwc
          have hwceq : vpComps = wc := Except.ok.inj hwc
          subst hwceq
          intro e he
          rcases List.mem_append.mp he with h1 | h1
          · exact mkdirStepFor_events_ok _ _ _ hmk e h1
          · simp only [List.mem_singleton] at h1
            subst h1
            exact ⟨validate_ok_not_escaping _ _ hvp, secureFileMode_strips_group_other mode⟩

theorem unlockFile_events_ok (fsReadLocal : List String → Option Bytes)
    (fsExists : List String → Bool) (confAsk : Bytes → Bytes → ConflictResult)
    (v : Vault) (key : Bytes) (strategy : MergeStrategy) (file : FileEntry) :
    ∀ e ∈ (unlockFile fsReadLocal fsExists confAsk v key strategy file).2,
      unlockEvOk e := by
  unfold unlockFile
  split
  · simp
  · rename_i ct _
    split
    · intro e he
      simp only [List.mem_singleton] at he
      subst he
      trivial
    · rename_i sealedData _
      split
      · intro e he
        simp only [List.mem_singleton] at he
        subst he
        trivial
      · split
        · intro e he
          simp only [List.mem_singleton] at he
          subst he
          trivial
        · rename_i validComps _
          have hbase : ∀ e ∈ ([.decryptBlob file.path, .readDisk validComps] : List Ev),
              unlockEvOk e := by
            intro e he
            simp only [List.mem_cons, List.mem_singleton, List.not_mem_nil, or_false] at he
            rcases he with h1 | h1 <;> (subst h1; trivial)
          have happend : ∀ tail : List Ev, (∀ e ∈ tail, unlockEvOk e) →
              ∀ e ∈ ([.decryptBlob file.path, .readDisk validComps] : List Ev) ++ tail,
                unlockEvOk e := by
            intro tail htail e he
            rcases List.mem_append.mp he with h1 | h1
            · exact hbase e h1
            · exact htail e h1
          split
          · exact happend _ (writeOut_events_ok validComps sealedData file.mode)
          · split
            · exact hbase
            · split
              · exact hbase
              · rename_i cr hcr
                split
                · exact hbase
                · exact hbase
                · exact happend _ (writeOut_events_ok validComps cr.mergedData file.mode)
                · exact happend _
                    (keepBothOut_events_ok fsExists validComps sealedData file.mode)
                · exact happend _ (writeOut_events_ok validComps sealedData file.mode)

theorem unlockLoop_events_ok (fsReadLocal : List String → Option Bytes)
    (fsExists : List String → Bool) (confAsk : Bytes → Bytes → ConflictResult)
    (v : Vault) (key : Bytes) (strategy : MergeStrategy) :
    ∀ files : List FileEntry,
      ∀ e ∈ (unlockLoop fsReadLocal fsExists confAsk v key strategy files).2,
        unlockEvOk e := by
  intro files
  induction files with
  | nil => simp [unlockLoop]
  | cons f fs ih =>
    intro e he
    unfold unlockLoop at he
    rcases List.mem_append.mp he with h1 | h1
    · exact unlockFile_events_ok fsReadLocal fsExists confAsk v key strategy f e h1
    · exact ih e h1

theorem unlock_events_ok (fsReadLocal : List String → Option Bytes)
    (fsExists : List String → Bool) (confAsk : Bytes → Bytes → ConflictResult)
    (v : Vault) (password : Option Bytes) (strategy : MergeStrategy)
    (patterns : List String) :
    ∀ e ∈ (unlock fsReadLocal fsExists confAsk v password strategy patterns).2.2,
      unlockEvOk e := by
  unfold unlock
  split
  · simp
  · rename_i metadata key _
    split
    · exact unlockLoop_events_ok fsReadLocal fsExists confAsk v key strategy _
    · split
      · simp
      · exact unlockLoop_events_ok fsReadLocal fsExists confAsk v key strategy _

/-! ### C2: counterexample (lock's finalize phase reads unvalidated paths) -/

def t2Entry : FileEntry := ⟨"../outside.txt", 1, 420, 0, hexEnc (sha256Sum [120])⟩
def t2Meta : Metadata := ⟨1, 0, 0, [], [t2Entry]⟩
def t2MetaCt : Bytes := wNonce ++ gcmSeal wKey wNonce (encodeMetadata t2Meta)

def t2Vault : Vault :=
  { salt := wSalt, iterations := wIter, modifiedAt := 0,
    manifest := [], blobs := [],
    priv := [("checksum", wTokenCt), ("files", t2MetaCt)] }

def t2FsRead : List String → Option Bytes :=
  fun c => if c = ["..", "outside.txt"] then some [120] else none

def t2FsStat : List String → Option StatInfo :=
  fun c => if c = ["..", "outside.txt"] then some ⟨1, 420, 0, false⟩ else none

def t2Nonces : Nat → Option Bytes := fun _ => some wNonce

set_option maxRecDepth 8000 in
/-- C2 counterexample: with a container whose (decryptable) metadata holds
the path "../outside.txt", the lock commit phase (FinalizeLock, invoked by
the lock operation after LockFiles) succeeds and both reads and — with
remove set — deletes a file OUTSIDE the repository root, with no error and
no exclusion of the path: the claim that no read or write is ever performed
outside the root, and that every vault-stored path is re-validated, fails. -/
theorem C2_lock_escaping_access_counterexample :
    escapesComps ["..", "outside.txt"] = true ∧
    (finalizeLock t2FsRead t2FsStat t2Nonces t2Vault (some wPw) true 1).2.2.any
      (fun e => match e with
        | .readDisk c => escapesComps c
        | _ => false) = true ∧
    (finalizeLock t2FsRead t2FsStat t2Nonces t2Vault (some wPw) true 1).2.2.any
      (fun e => match e with
        | .removeDisk c => escapesComps c
        | _ => false) = true ∧
    (finalizeLock t2FsRead t2FsStat t2Nonces t2Vault (some wPw) true 1).1 = .ok () := by
  refine ⟨by decide, by decide, by decide, by decide⟩

/-- C2 amended: the validator rejects empty, absolute and escaping paths; a
validated path never escapes the root; ValidateExistingPath applies the same
validation function; and every disk write or directory creation unlock's
write-back performs targets a validated, non-escaping path — but the lock
finalize phase reads (and with remove=true deletes) vault-stored paths
without re-validation (see the counterexample), so only writes, not reads,
are confined on tampered containers. -/
theorem C2_path_validation_write_confinement :
    validateAndNormalize ⟨false, []⟩ = .error .emptyPath ∧
    (∀ comps, validateAndNormalize ⟨true, comps⟩ = .error .absolutePath) ∧
    (∀ comps, comps ≠ [] → (cleanRel comps).head? = some ".." →
      validateAndNormalize ⟨false, comps⟩ = .error .pathEscapes) ∧
    (∀ p comps, validateAndNormalize p = .ok comps → escapesComps comps = false) ∧
    (∀ s, validateExistingPath s = validateAndNormalize (splitPath s)) ∧
    (∀ fsReadLocal fsExists confAsk v password strategy patterns,
      ∀ e ∈ (unlock fsReadLocal fsExists confAsk v password strategy patterns).2.2,
        evInsideRoot e = true) := by
  refine ⟨validateAndNormalize_empty, validateAndNormalize_abs, ?_, ?_, fun s => rfl, ?_⟩
  · intro comps hne hhead
    exact validateAndNormalize_escaping comps hhead hne
  · intro p comps h
    exact validate_ok_not_escaping p comps h
  · intro fsReadLocal fsExists confAsk v password strategy patterns e he
    exact unlockEvOk_insideRoot e
      (unlock_events_ok fsReadLocal fsExists confAsk v password strategy patterns e he)

/-- C2 amended witness: the escaping-path conjunct applied to "../x". -/
theorem C2_path_validation_write_confinement_witness :
    (["..", "x"] : List String) ≠ [] ∧ (cleanRel ["..", "x"]).head? = some ".." ∧
    validateAndNormalize ⟨false, ["..", "x"]⟩ = .error .pathEscapes :=
  ⟨by decide, by decide,
    C2_path_validation_write_confinement.2.2.1 ["..", "x"] (by decide) (by decide)⟩

/-- C7 amended: on write-back, directories are created 0700 and files are
written with the recorded mode masked to the owner bits (falling back to
0600 when the mask is zero, hence preserving an owner-execute bit whenever
recorded); group/other bits are always stripped, and every write/mkdir event
unlock emits satisfies this policy. -/
theorem C7_secure_permissions :
    (∀ mode, secureFileMode mode &&& 0o077 = 0) ∧
    (∀ mode, mode &&& 0o700 = 0 → secureFileMode mode = FilePermSecure) ∧
    (∀ mode, mode &&& 0o700 ≠ 0 → secureFileMode mode = mode &&& 0o700) ∧
    (∀ mode, mode &&& 0o100 ≠ 0 → secureFileMode mode &&& 0o100 ≠ 0) ∧
    DirPermSecure = 0o700 ∧ FilePermSecure = 0o600 ∧
    (∀ fsReadLocal fsExists confAsk v password strategy patterns,
      ∀ e ∈ (unlock fsReadLocal fsExists confAsk v password strategy patterns).2.2,
        evModeOk e = true) := by
  refine ⟨secureFileMode_strips_group_other,
    fun mode => (secureFileMode_mask mode).1,
    fun mode => (secureFileMode_mask mode).2, ?_, rfl, rfl, ?_⟩
  · intro mode hexec
    have hmask : mode &&& 0o700 ≠ 0 := by
      intro h0
      apply hexec
      have : (mode &&& 0o700) &&& 0o100 = mode &&& (0o700 &&& 0o100) := Nat.land_assoc _ _ _
      have h64 : (0o700 &&& 0o100 : Nat) = 0o100 := by decide
      rw [h64] at this
      rw [← this, h0]
      decide
    rw [(secureFileMode_mask mode).2 hmask]
    have : (mode &&& 0o700) &&& 0o100 = mode &&& (0o700 &&& 0o100) := Nat.land_assoc _ _ _
    have h64 : (0o700 &&& 0o100 : Nat) = 0o100 := by decide
    rw [this, h64]
    exact hexec
  · intro fsReadLocal fsExists confAsk v password strategy patterns e he
    exact unlockEvOk_modeOk e
      (unlock_events_ok fsReadLocal fsExists confAsk v password strategy patterns e he)

/-- C7 amended witness: the owner-bit masking at the concrete modes 0444
(read-only, restored as 0400) and 0755 (exec bit, restored as 0700). -/
theorem C7_secure_permissions_witness :
    ((0o444 : Nat) &&& 0o700 ≠ 0 ∧ secureFileMode 0o444 = 0o444 &&& 0o700) ∧
    ((0o755 : Nat) &&& 0o100 ≠ 0 ∧ secureFileMode 0o755 &&& 0o100 ≠ 0) :=
  ⟨⟨by decide, C7_secure_permissions.2.2.1 0o444 (by decide)⟩,
   ⟨by decide, C7_secure_permissions.2.2.2.1 0o755 (by decide)⟩⟩

/-! ### C1: ChangePassword ordering and re-encryption -/

theorem cpDecryptAll_paths (key : Bytes) (blobs : List (String × Bytes)) :
    ∀ (entries : List FileEntry) (files : List (String × Bytes)),
      cpDecryptAll key blobs entries = .ok files →
      files.map Prod.fst = entries.map (fun f => f.path) := by
  intro entries
  induction entries with
  | nil =>
    intro files h
    simp only [cpDecryptAll] at h
    cases h
    rfl
  | cons e rest ih =>
    intro files h
    unfold cpDecryptAll at h
    split at h
    · exact absurd h (by simp)
    · split at h
      · exact absurd h (by simp)
      · rename_i data _
        split at h
        · rename_i fs hfs
          cases h
          simp only [List.map_cons]
          rw [ih fs hfs]
        · exact absurd h (by simp)

theorem cpStoreAll_spec (newKey : Bytes) (hk : newKey.length = 32)
    (nonces : Nat → Option Bytes)
    (hnonce : ∀ i, ∃ n, nonces i = some n ∧ n.length = 12) :
    ∀ (files : List (String × Bytes)) (ctr : Nat) (v : Vault) (evs : List Ev),
      (files.map Prod.fst).Nodup →
      ∃ v' evs' ctr',
        cpStoreAll newKey nonces files ctr v evs = (.ok (), v', evs', ctr') ∧
        v'.salt = v.salt ∧ v'.iterations = v.iterations ∧ v'.priv = v.priv ∧
        v'.modifiedAt = v.modifiedAt ∧
        (∃ extra, evs' = evs ++ extra) ∧
        (∀ q, q ∉ files.map Prod.fst → alGet v'.blobs q = alGet v.blobs q) ∧
        (∀ pd ∈ files, ∃ ct, alGet v'.blobs pd.1 = some ct ∧
          Decrypt newKey ct = .ok pd.2) := by
  intro files
  induction files with
  | nil =>
    intro ctr v evs _
    exact ⟨v, evs, ctr, rfl, rfl, rfl, rfl, rfl, ⟨[], by simp⟩,
      fun q _ => rfl, by simp⟩
  | cons pd rest ih =>
    intro ctr v evs hnodup
    match pd with
    | (path, data) =>
      obtain ⟨n, hn, hnlen⟩ := hnonce ctr
      have hkeyok : aesKeyLenOk newKey = true := by simp [aesKeyLenOk, hk]
      have henc : Encrypt newKey (nonces ctr) data =
          .ok (n ++ gcmSeal newKey n data) := by
        unfold Encrypt
        rw [hn]
        simp [hkeyok]
      have hnodup' : (rest.map Prod.fst).Nodup := (List.nodup_cons.mp hnodup).2
      have hnotmem : path ∉ rest.map Prod.fst := (List.nodup_cons.mp hnodup).1
      obtain ⟨v', evs', ctr', hrec, hsalt, hiter, hpriv, hmod, ⟨extra, hevs⟩,
        huntouched, hper⟩ :=
        ih (ctr + 1) { v with blobs := alPut v.blobs path (n ++ gcmSeal newKey n data) }
          (evs ++ [.stPutBlob path (n ++ gcmSeal newKey n data)]) hnodup'
      refine ⟨v', evs', ctr', ?_, hsalt, hiter, hpriv, hmod,
        ⟨[.stPutBlob path (n ++ gcmSeal newKey n data)] ++ extra, by
          rw [hevs, List.append_assoc]⟩, ?_, ?_⟩
      · unfold cpStoreAll
        rw [henc]
        exact hrec
      · intro q hq
        simp only [List.map_cons, List.mem_cons, not_or] at hq
        rw [huntouched q hq.2]
        exact alGet_alPut_diff v.blobs path q _ (fun h => hq.1 h.symm)
      · intro qd hqd
        rcases List.mem_cons.mp hqd with h1 | h1
        · subst h1
          refine ⟨n ++ gcmSeal newKey n data, ?_, ?_⟩
          · rw [huntouched path hnotmem]
            exact alGet_alPut_same v.blobs path _
          · exact decrypt_encrypt_roundtrip newKey n data hk hnlen
        · exact hper qd h1

def c1Salt : Bytes := List.replicate 32 9
def c1Nonces : Nat → Option Bytes := fun _ => some wNonce

set_option maxRecDepth 8000 in
/-- C1 counterexample: in a successful ChangePassword run on the concrete
vault, the new salt and iteration count are persisted FIRST — the first two
store events are SetSalt and SetIterations, and the blob re-encryptions are
stored strictly after them — contradicting the claim that the new salt is
persisted only after all re-encryptions are stored and is not visible in
the config namespace before then. -/
theorem C1_salt_persisted_first_counterexample :
    (changePassword c1Nonces c1Salt wVault (some wPw) [98]).1 = .ok () ∧
    (changePassword c1Nonces c1Salt wVault (some wPw) [98]).2.2.take 2 =
      [.stSetSalt c1Salt, .stSetIterations DefaultIters] ∧
    ((changePassword c1Nonces c1Salt wVault (some wPw) [98]).2.2.drop 2).any
      (fun e => match e with | .stPutBlob _ _ => true | _ => false) = true := by
  refine ⟨by decide, by decide, by decide⟩

set_option maxHeartbeats 1000000 in
/-- C1 amended: ChangePassword decrypts the Metadata and every stored blob
with the old key, then persists the new salt and iteration count BEFORE the
re-encryptions (the first two store events are SetSalt/SetIterations), and
then re-encrypts and stores every blob, the password-check token, and the
Metadata record under the new key: afterwards the container holds the new
salt and default iterations, and every blob, the check token and the
metadata decrypt under the new key to their old plaintexts. -/
theorem C1_changePassword_amended (nonces : Nat → Option Bytes) (newSalt : Bytes)
    (v : Vault) (pw newPw : Bytes) (metadata : Metadata) (key : Bytes)
    (files : List (String × Bytes))
    (hrm : readMetadata v (some pw) = .ok (metadata, key))
    (hdec : cpDecryptAll key v.blobs metadata.files = .ok files)
    (hnonce : ∀ i, ∃ n, nonces i = some n ∧ n.length = 12)
    (hnodup : (metadata.files.map (fun f => f.path)).Nodup) :
    ∃ v' evs,
      changePassword nonces newSalt v (some pw) newPw = (.ok (), v', evs) ∧
      v'.salt = newSalt ∧ v'.iterations = DefaultIters ∧
      evs.take 2 = [.stSetSalt newSalt, .stSetIterations DefaultIters] ∧
      (∀ pd ∈ files, ∃ ct, alGet v'.blobs pd.1 = some ct ∧
        Decrypt (deriveKey newPw newSalt DefaultIters) ct = .ok pd.2) ∧
      (∃ ctTok, alGet v'.priv "checksum" = some ctTok ∧
        Decrypt (deriveKey newPw newSalt DefaultIters) ctTok = .ok checkTokenPlain) ∧
      (∃ ctMeta, alGet v'.priv "files" = some ctMeta ∧
        Decrypt (deriveKey newPw newSalt DefaultIters) ctMeta =
          .ok (encodeMetadata metadata)) := by
  have hk : (deriveKey newPw newSalt DefaultIters).length = 32 :=
    deriveKey_length newPw newSalt DefaultIters
  have hkeyok : aesKeyLenOk (deriveKey newPw newSalt DefaultIters) = true := by
    simp [aesKeyLenOk, hk]
  have hfnodup : (files.map Prod.fst).Nodup := by
    rw [cpDecryptAll_paths key v.blobs metadata.files files hdec]
    exact hnodup
  obtain ⟨v2, evs2, ctr, hstore, hsalt, hiter, hpriv, hmod, ⟨extra, hevs⟩,
    huntouched, hper⟩ :=
    cpStoreAll_spec (deriveKey newPw newSalt DefaultIters) hk nonces hnonce files 0
      { v with salt := newSalt, iterations := DefaultIters }
      [.stSetSalt newSalt, .stSetIterations DefaultIters] hfnodup
  obtain ⟨n1, hn1, hl1⟩ := hnonce ctr
  obtain ⟨n2, hn2, hl2⟩ := hnonce (ctr + 1)
  have henc1 : Encrypt (deriveKey newPw newSalt DefaultIters) (nonces ctr)
      checkTokenPlain =
      .ok (n1 ++ gcmSeal (deriveKey newPw newSalt DefaultIters) n1 checkTokenPlain) := by
    unfold Encrypt
    rw [hn1]
    simp [hkeyok]
  have henc2 : Encrypt (deriveKey newPw newSalt DefaultIters) (nonces (ctr + 1))
      (encodeMetadata metadata) =
      .ok (n2 ++ gcmSeal (deriveKey newPw newSalt DefaultIters) n2
        (encodeMetadata metadata)) := by
    unfold Encrypt
    rw [hn2]
    simp [hkeyok]
  refine ⟨{ v2 with
        priv := alPut (alPut v2.priv "checksum" (n1 ++ gcmSeal
              (deriveKey newPw newSalt DefaultIters) n1 checkTokenPlain)) "files"
            (n2 ++ gcmSeal (deriveKey newPw newSalt DefaultIters) n2
              (encodeMetadata metadata)) },
    evs2 ++ [.stPutPriv "checksum" (n1 ++ gcmSeal
          (deriveKey newPw newSalt DefaultIters) n1 checkTokenPlain)] ++
      [.stPutPriv "files" (n2 ++ gcmSeal (deriveKey newPw newSalt DefaultIters) n2
          (encodeMetadata metadata))],
    ?_, ?_, ?_, ?_, ?_, ?_, ?_⟩
  · simp only [changePassword, hrm, hdec, hstore, henc1, henc2]
  · simpa using hsalt
  · simpa using hiter
  · rw [hevs]
    rfl
  · intro pd hpd
    obtain ⟨ct, hget, hdc⟩ := hper pd hpd
    exact ⟨ct, hget, hdc⟩
  · refine ⟨n1 ++ gcmSeal (deriveKey newPw newSalt DefaultIters) n1 checkTokenPlain,
      ?_, decrypt_encrypt_roundtrip _ n1 checkTokenPlain hk hl1⟩
    show alGet (alPut _ "files" _) "checksum" = _
    rw [alGet_alPut_diff _ "files" "checksum" _ (by decide)]
    exact alGet_alPut_same _ "checksum" _
  · exact ⟨n2 ++ gcmSeal (deriveKey newPw newSalt DefaultIters) n2
      (encodeMetadata metadata),
      alGet_alPut_same _ "files" _,
      decrypt_encrypt_roundtrip _ n2 (encodeMetadata metadata) hk hl2⟩

set_option maxRecDepth 8000 in
/-- C1 amended witness: a concrete rotation of the test vault's password. -/
theorem C1_changePassword_amended_witness :
    readMetadata wVault (some wPw) = .ok (wMeta, wKey) ∧
    cpDecryptAll wKey wVault.blobs wMeta.files = .ok [("a.txt", wContent)] ∧
    ∃ v' evs,
      changePassword c1Nonces c1Salt wVault (some wPw) [98] = (.ok (), v', evs) ∧
      v'.salt = c1Salt ∧ v'.iterations = DefaultIters ∧
      evs.take 2 = [.stSetSalt c1Salt, .stSetIterations DefaultIters] ∧
      (∀ pd ∈ [("a.txt", wContent)], ∃ ct, alGet v'.blobs pd.1 = some ct ∧
        Decrypt (deriveKey [98] c1Salt DefaultIters) ct = .ok pd.2) ∧
      (∃ ctTok, alGet v'.priv "checksum" = some ctTok ∧
        Decrypt (deriveKey [98] c1Salt DefaultIters) ctTok = .ok checkTokenPlain) ∧
      (∃ ctMeta, alGet v'.priv "files" = some ctMeta ∧
        Decrypt (deriveKey [98] c1Salt DefaultIters) ctMeta =
          .ok (encodeMetadata wMeta)) := by
  have h1 : readMetadata wVault (some wPw) = .ok (wMeta, wKey) := by decide
  have h2 : cpDecryptAll wKey wVault.blobs wMeta.files = .ok [("a.txt", wContent)] := by
    decide
  exact ⟨h1, h2,
    C1_changePassword_amended c1Nonces c1Salt wVault wPw [98] wMeta wKey
      [("a.txt", wContent)] h1 h2 (fun i => ⟨wNonce, rfl, by decide⟩) (by decide)⟩

end Lockenv
